import Mathlib

/- Verification of the Minesweeper knowledge agent (src/minesweeper.py).

   Shallow embedding: `Sentence` and `MinesweeperAI` are translated into pure
   Lean definitions.  Cells are pairs of integers and counts are integers,
   matching Python's unbounded ints.  Python's mutable sets become `Finset`,
   the knowledge list becomes `List Sentence`, and in-place mutation becomes
   explicit state passing on `AIState`.  The unbounded `while changed` loop of
   `add_knowledge` is modelled with an explicit fuel parameter: a result of
   `none` means the loop has not reached its fixpoint within the given fuel. -/

abbrev Cell : Type := ℤ × ℤ

/-- Total order on cells, used to iterate over a Python set in a canonical
order.  Python iterates sets in an unspecified order; the marking operations
performed during such iterations commute on distinct cells, so fixing the
lexicographic order is a faithful instantiation. -/
def cellLe (a b : Cell) : Prop :=
  a.1 < b.1 ∨ (a.1 = b.1 ∧ a.2 ≤ b.2)

instance : DecidableRel cellLe := fun a b => by
  unfold cellLe
  exact inferInstance

instance : IsTrans Cell cellLe :=
  ⟨by
    intro a b c hab hbc
    unfold cellLe at *
    omega⟩

instance : IsAntisymm Cell cellLe :=
  ⟨by
    intro a b hab hba
    unfold cellLe at *
    have h1 : a.1 = b.1 ∧ a.2 = b.2 := by omega
    exact Prod.ext h1.1 h1.2⟩

instance : IsTotal Cell cellLe :=
  ⟨by
    intro a b
    unfold cellLe
    omega⟩

/-- `class Sentence`: a set of board cells together with a count of how many
of those cells are mines.  Equality (`__eq__`) is value equality on both
fields, which `DecidableEq` gives us. -/
structure Sentence where
  cells : Finset Cell
  count : ℤ

/-- Value equality of sentences (`Sentence.__eq__`): equal cell sets and
equal counts.  Defined without proof transport so that it evaluates by
kernel reduction on concrete states. -/
instance : DecidableEq Sentence := fun a b =>
  decidable_of_iff (a.cells = b.cells ∧ a.count = b.count)
    (by cases a; cases b; simp)

namespace Sentence

/-- `Sentence.known_mines`: if `len(self.cells) == self.count` return the
cells, else the empty set. -/
def known_mines (s : Sentence) : Finset Cell :=
  if (s.cells.card : ℤ) = s.count then s.cells else ∅

/-- `Sentence.known_safes`: if `self.count == 0` return the cells, else the
empty set. -/
def known_safes (s : Sentence) : Finset Cell :=
  if s.count = 0 then s.cells else ∅

/-- `Sentence.mark_mine`: if the cell is present, remove it and decrement the
count; otherwise do nothing. -/
def mark_mine (s : Sentence) (cell : Cell) : Sentence :=
  if cell ∈ s.cells then ⟨s.cells.erase cell, s.count - 1⟩ else s

/-- `Sentence.mark_safe`: if the cell is present, remove it; the count is
unchanged. -/
def mark_safe (s : Sentence) (cell : Cell) : Sentence :=
  if cell ∈ s.cells then ⟨s.cells.erase cell, s.count⟩ else s

end Sentence

/-- The default sentence used to total-ise list indexing in the embedding;
the index is always in range when the engine runs, so the default is never
actually returned. -/
def defaultSentence : Sentence := ⟨∅, 0⟩

/-- The mutable state of a `MinesweeperAI` instance. -/
structure AIState where
  height : ℕ
  width : ℕ
  moves_made : Finset Cell
  mines : Finset Cell
  safes : Finset Cell
  knowledge : List Sentence

instance : DecidableEq AIState := fun a b =>
  decidable_of_iff (a.height = b.height ∧ a.width = b.width ∧
      a.moves_made = b.moves_made ∧ a.mines = b.mines ∧
      a.safes = b.safes ∧ a.knowledge = b.knowledge)
    (by cases a; cases b; simp)

/-- Equality of optional agent states, again without proof transport so
that concrete runs evaluate by kernel reduction. -/
instance (priority := 2000) : DecidableEq (Option AIState) := fun a b =>
  match a, b with
  | none, none => isTrue rfl
  | some x, some y => decidable_of_iff (x = y) (by simp)
  | none, some _ => isFalse (by simp)
  | some _, none => isFalse (by simp)

/-- `MinesweeperAI.__init__`. -/
def initState (height width : ℕ) : AIState :=
  ⟨height, width, ∅, ∅, ∅, []⟩

namespace AIState

/-- `MinesweeperAI.mark_mine`: add the cell to the global mine set and tell
every sentence in the knowledge base about it. -/
def mark_mine (σ : AIState) (cell : Cell) : AIState :=
  { σ with
      mines := insert cell σ.mines,
      knowledge := σ.knowledge.map (fun s => s.mark_mine cell) }

/-- `MinesweeperAI.mark_safe`: add the cell to the global safe set and tell
every sentence in the knowledge base about it. -/
def mark_safe (σ : AIState) (cell : Cell) : AIState :=
  { σ with
      safes := insert cell σ.safes,
      knowledge := σ.knowledge.map (fun s => s.mark_safe cell) }

end AIState

/-- The eight `(i_offset, j_offset)` pairs of the nested neighbour loops in
`add_knowledge`, in source iteration order, with `(0, 0)` skipped. -/
def neighborOffsets : List (ℤ × ℤ) :=
  [(-1, -1), (-1, 0), (-1, 1), (0, -1), (0, 1), (1, -1), (1, 0), (1, 1)]

/-- The neighbour computation of `add_knowledge`: each offset is kept only if
the resulting coordinates satisfy `0 <= neighbor_i < height` and
`0 <= neighbor_j < width`. -/
def neighbors (height width : ℕ) (cell : Cell) : List Cell :=
  neighborOffsets.filterMap (fun o =>
    let ni := cell.1 + o.1
    let nj := cell.2 + o.2
    if 0 ≤ ni ∧ ni < (height : ℤ) ∧ 0 ≤ nj ∧ nj < (width : ℤ) then
      some (ni, nj)
    else none)

/-- The neighbour filtering loop of `add_knowledge`: skip neighbours already
in `moves_made` or `safes`, count neighbours known to be mines, and collect
the rest as `unknown_neighbors`. -/
def classifyNeighbors (σ : AIState) (nbrs : List Cell) : List Cell × ℕ :=
  nbrs.foldl
    (fun acc n =>
      if n ∈ σ.moves_made ∨ n ∈ σ.safes then acc
      else if n ∈ σ.mines then (acc.1, acc.2 + 1)
      else (acc.1 ++ [n], acc.2))
    ([], 0)

/-- Iterate over a Python set: list its elements in the canonical
(lexicographic) order.  Implemented with the structurally recursive
insertion sort so that it evaluates by kernel reduction; the result does
not depend on the multiset representative because sorting a permutation of
a duplicate-free list in a total antisymmetric order is unique. -/
def cellSort (s : Finset Cell) : List Cell :=
  Quot.liftOn s.val (fun l => List.insertionSort cellLe l)
    (fun l1 l2 h =>
      List.eq_of_perm_of_sorted
        ((List.perm_insertionSort cellLe l1).trans
          ((h : l1.Perm l2).trans (List.perm_insertionSort cellLe l2).symm))
        (List.sorted_insertionSort cellLe l1)
        (List.sorted_insertionSort cellLe l2))

theorem mem_cellSort {s : Finset Cell} {c : Cell} :
    c ∈ cellSort s ↔ c ∈ s := by
  rcases s with ⟨m, hnd⟩
  show c ∈ Quot.liftOn m _ _ ↔ c ∈ Finset.mk m hnd
  induction m using Quotient.inductionOn with
  | h l =>
    show c ∈ List.insertionSort cellLe l ↔ _
    rw [(List.perm_insertionSort cellLe l).mem_iff]
    exact Iff.rfl

/-- `for mine in list(mines): self.mark_mine(mine)`. -/
def markMineList (σ : AIState) (l : List Cell) : AIState :=
  l.foldl AIState.mark_mine σ

/-- `for safe in list(safes): self.mark_safe(safe)`. -/
def markSafeList (σ : AIState) (l : List Cell) : AIState :=
  l.foldl AIState.mark_safe σ

/-- One step of the simplification pass of `add_knowledge`, processing the
sentence at position `i` of the knowledge base: query `known_mines` on it,
and if the result is non-empty mark every cell in it as a mine (which
mutates every sentence, including this one); then query `known_safes` on the
(possibly mutated) sentence at the same position and mark the results safe.
Each non-empty query sets the `changed` flag. -/
def simplifyAt (p : AIState × Bool) (i : ℕ) : AIState × Bool :=
  let s := p.1.knowledge.getD i defaultSentence
  let m := s.known_mines
  let q : AIState × Bool :=
    if m ≠ ∅ then (markMineList p.1 (cellSort m), true) else p
  let s2 := q.1.knowledge.getD i defaultSentence
  let sf := s2.known_safes
  if sf ≠ ∅ then (markSafeList q.1 (cellSort sf), true) else q

/-- The simplification pass: `for sentence in self.knowledge`, processing
positions in order while the sentences underneath mutate.  The length of the
knowledge base does not change during the pass. -/
def simplificationPass (σ : AIState) : AIState × Bool :=
  (List.range σ.knowledge.length).foldl simplifyAt (σ, false)

/-- The body of the resolution pass of `add_knowledge` for one ordered pair
`(sentence1, sentence2)`: if `sentence1.cells ⊆ sentence2.cells`, the two are
value-distinct and both non-empty, derive the candidate
`⟨sentence2.cells - sentence1.cells, sentence2.count - sentence1.count⟩`;
stage it if its cell set is non-empty and it is not already in the knowledge
base by value equality. -/
def resolveCandidate (kb : List Sentence) (s1 s2 : Sentence) :
    Option Sentence :=
  if s1.cells ⊆ s2.cells ∧ s1 ≠ s2 ∧
      0 < s1.cells.card ∧ 0 < s2.cells.card then
    let nc := s2.cells \ s1.cells
    if nc ≠ ∅ then
      let cand : Sentence := ⟨nc, s2.count - s1.count⟩
      if cand ∉ kb then some cand else none
    else none
  else none

/-- The resolution pass of `add_knowledge`: the nested
`for sentence1 in self.knowledge: for sentence2 in self.knowledge` loops,
collecting the staged `new_sentences`. -/
def resolutionPass (kb : List Sentence) : List Sentence :=
  kb.flatMap (fun s1 => kb.filterMap (resolveCandidate kb s1))

/-- One iteration of the `while changed` loop: the simplification pass, then
the resolution pass, appending all staged sentences; the `changed` flag is
set if either pass did anything. -/
def inferStep (σ : AIState) : AIState × Bool :=
  let p := simplificationPass σ
  let staged := resolutionPass p.1.knowledge
  ({ p.1 with knowledge := p.1.knowledge ++ staged }, p.2 || !staged.isEmpty)

/-- The `while changed` loop, with fuel.  `none` means the loop has not
reached its fixpoint within `fuel` iterations. -/
def inferLoop : ℕ → AIState → Option AIState
  | 0, _ => none
  | fuel + 1, σ =>
    let p := inferStep σ
    if p.2 then inferLoop fuel p.1 else some p.1

/-- The part of `MinesweeperAI.add_knowledge(cell, count)` before the
`while changed` loop: record the move, mark the cell safe, and if the cell
has neighbours of yet-unknown status, append a sentence over them whose
count is the clue minus the number of neighbours already known to be
mines. -/
def preObserve (σ : AIState) (cell : Cell) (count : ℤ) : AIState :=
  let σ1 := { σ with moves_made := insert cell σ.moves_made }
  let σ2 := σ1.mark_safe cell
  let nbrs := neighbors σ2.height σ2.width cell
  let uk := classifyNeighbors σ2 nbrs
  if uk.1 ≠ [] then
    { σ2 with
        knowledge := σ2.knowledge ++ [⟨uk.1.toFinset, count - (uk.2 : ℤ)⟩] }
  else σ2

/-- `MinesweeperAI.add_knowledge(cell, count)`: the pre-loop bookkeeping
followed by the `while changed` loop.  The fuel bounds the loop; the Python
loop is unbounded. -/
def add_knowledge (fuel : ℕ) (σ : AIState) (cell : Cell) (count : ℤ) :
    Option AIState :=
  inferLoop fuel (preObserve σ cell count)

/-- The `valid_moves` list built by `make_random_move`: all grid cells not in
`moves_made` and not in `mines`, in row-major order. -/
def validMoves (σ : AIState) : List Cell :=
  (List.range σ.height).flatMap (fun (i : ℕ) =>
    (List.range σ.width).filterMap (fun (j : ℕ) =>
      if (((i : ℤ), (j : ℤ)) : Cell) ∉ σ.moves_made ∧
          (((i : ℤ), (j : ℤ)) : Cell) ∉ σ.mines then
        some (((i : ℤ), (j : ℤ)) : Cell)
      else none))

/-- `MinesweeperAI.make_random_move`: `random.choice(valid_moves)` if the
list is non-empty, else `None`.  The random choice is modelled by an
arbitrary selector `pick`. -/
def make_random_move (pick : List Cell → Cell) (σ : AIState) : Option Cell :=
  let vm := validMoves σ
  if vm ≠ [] then some (pick vm) else none

/-- Run a sequence of observations (`add_knowledge` calls), all with the same
fuel. -/
def runObs (fuel : ℕ) : AIState → List (Cell × ℤ) → Option AIState
  | σ, [] => some σ
  | σ, (c, k) :: rest =>
    match add_knowledge fuel σ c k with
    | none => none
    | some σ1 => runObs fuel σ1 rest

/-- One call of the agent's public mutating surface: an observation, or a
direct `mark_mine` / `mark_safe` call. -/
inductive AgentOp where
  | obs (c : Cell) (k : ℤ)
  | mine (c : Cell)
  | safe (c : Cell)
  deriving DecidableEq

/-- Apply one agent operation. -/
def applyOp (fuel : ℕ) (σ : AIState) : AgentOp → Option AIState
  | .obs c k => add_knowledge fuel σ c k
  | .mine c => some (σ.mark_mine c)
  | .safe c => some (σ.mark_safe c)

/-- Run a sequence of agent operations. -/
def runOps (fuel : ℕ) : AIState → List AgentOp → Option AIState
  | σ, [] => some σ
  | σ, op :: rest =>
    match applyOp fuel σ op with
    | none => none
    | some σ1 => runOps fuel σ1 rest

/-- The set of in-bounds grid cells. -/
def gridCells (height width : ℕ) : Finset Cell :=
  ((Finset.range height) ×ˢ (Finset.range width)).image
    (fun p => ((p.1 : ℤ), (p.2 : ℤ)))

/-- An observation sequence is consistent with a mine assignment `M` when
every observed cell is not a mine and every clue equals the number of mines
among the in-bounds neighbours of the observed cell. -/
def Consistent (height width : ℕ) (M : Finset Cell)
    (obs : List (Cell × ℤ)) : Prop :=
  ∀ p ∈ obs, p.1 ∉ M ∧
    p.2 = (((neighbors height width p.1).toFinset ∩ M).card : ℤ)

/-- Consistency of one agent operation with the mine assignment `M`:
observations as in `Consistent`, direct `mark_mine` only on actual mines,
direct `mark_safe` only on actual non-mines. -/
def opConsistent (height width : ℕ) (M : Finset Cell) : AgentOp → Prop
  | .obs c k =>
      c ∉ M ∧ k = (((neighbors height width c).toFinset ∩ M).card : ℤ)
  | .mine c => c ∈ M
  | .safe c => c ∉ M

instance (height width : ℕ) (M : Finset Cell) :
    DecidablePred (opConsistent height width M) := fun op => by
  cases op <;> (unfold opConsistent; infer_instance)

/-- An operation sequence is consistent with a mine assignment `M`. -/
def OpsConsistent (height width : ℕ) (M : Finset Cell)
    (ops : List AgentOp) : Prop :=
  ∀ op ∈ ops, opConsistent height width M op

instance (height width : ℕ) (M : Finset Cell) (ops : List AgentOp) :
    Decidable (OpsConsistent height width M ops) := by
  unfold OpsConsistent
  infer_instance

instance (height width : ℕ) (M : Finset Cell) (obs : List (Cell × ℤ)) :
    Decidable (Consistent height width M obs) := by
  unfold Consistent
  infer_instance

/- ---------------------------------------------------------------------
   Basic lemmas about the sentence and agent operations.
   --------------------------------------------------------------------- -/

theorem Sentence.mark_mine_cells (s : Sentence) (c : Cell) :
    (s.mark_mine c).cells = s.cells.erase c := by
  unfold Sentence.mark_mine
  split
  · rfl
  · rename_i h
    exact (Finset.erase_eq_of_not_mem h).symm

theorem Sentence.mark_safe_cells (s : Sentence) (c : Cell) :
    (s.mark_safe c).cells = s.cells.erase c := by
  unfold Sentence.mark_safe
  split
  · rfl
  · rename_i h
    exact (Finset.erase_eq_of_not_mem h).symm

theorem Sentence.mark_safe_count (s : Sentence) (c : Cell) :
    (s.mark_safe c).count = s.count := by
  unfold Sentence.mark_safe
  split <;> rfl

theorem Sentence.mark_mine_of_empty (s : Sentence) (c : Cell)
    (h : s.cells = ∅) : s.mark_mine c = s := by
  unfold Sentence.mark_mine
  rw [h]
  simp

theorem Sentence.mark_safe_of_empty (s : Sentence) (c : Cell)
    (h : s.cells = ∅) : s.mark_safe c = s := by
  unfold Sentence.mark_safe
  rw [h]
  simp

theorem Sentence.known_mines_of_empty (s : Sentence) (h : s.cells = ∅) :
    s.known_mines = ∅ := by
  unfold Sentence.known_mines
  split <;> simp [h]

theorem Sentence.known_safes_of_empty (s : Sentence) (h : s.cells = ∅) :
    s.known_safes = ∅ := by
  unfold Sentence.known_safes
  split <;> simp [h]

theorem AIState.mark_mine_height (σ : AIState) (c : Cell) :
    (σ.mark_mine c).height = σ.height := rfl

theorem AIState.mark_mine_width (σ : AIState) (c : Cell) :
    (σ.mark_mine c).width = σ.width := rfl

theorem AIState.mark_mine_moves (σ : AIState) (c : Cell) :
    (σ.mark_mine c).moves_made = σ.moves_made := rfl

theorem AIState.mark_mine_mines (σ : AIState) (c : Cell) :
    (σ.mark_mine c).mines = insert c σ.mines := rfl

theorem AIState.mark_mine_safes (σ : AIState) (c : Cell) :
    (σ.mark_mine c).safes = σ.safes := rfl

theorem AIState.mark_mine_knowledge (σ : AIState) (c : Cell) :
    (σ.mark_mine c).knowledge = σ.knowledge.map (fun s => s.mark_mine c) :=
  rfl

theorem AIState.mark_safe_height (σ : AIState) (c : Cell) :
    (σ.mark_safe c).height = σ.height := rfl

theorem AIState.mark_safe_width (σ : AIState) (c : Cell) :
    (σ.mark_safe c).width = σ.width := rfl

theorem AIState.mark_safe_moves (σ : AIState) (c : Cell) :
    (σ.mark_safe c).moves_made = σ.moves_made := rfl

theorem AIState.mark_safe_mines (σ : AIState) (c : Cell) :
    (σ.mark_safe c).mines = σ.mines := rfl

theorem AIState.mark_safe_safes (σ : AIState) (c : Cell) :
    (σ.mark_safe c).safes = insert c σ.safes := rfl

theorem AIState.mark_safe_knowledge (σ : AIState) (c : Cell) :
    (σ.mark_safe c).knowledge = σ.knowledge.map (fun s => s.mark_safe c) :=
  rfl

/-- Characterisation of the pair-resolution body: it returns `some t` exactly
when the guard conditions hold, the set difference is non-empty, the derived
candidate is not already present by value, and `t` is that candidate. -/
theorem resolveCandidate_eq_some (kb : List Sentence) (s1 s2 t : Sentence) :
    resolveCandidate kb s1 s2 = some t ↔
      s1.cells ⊆ s2.cells ∧ s1 ≠ s2 ∧
      0 < s1.cells.card ∧ 0 < s2.cells.card ∧
      s2.cells \ s1.cells ≠ ∅ ∧
      (⟨s2.cells \ s1.cells, s2.count - s1.count⟩ : Sentence) ∉ kb ∧
      t = ⟨s2.cells \ s1.cells, s2.count - s1.count⟩ := by
  simp only [resolveCandidate]
  by_cases hg : s1.cells ⊆ s2.cells ∧ s1 ≠ s2 ∧
      0 < s1.cells.card ∧ 0 < s2.cells.card
  · by_cases hnc : s2.cells \ s1.cells ≠ ∅
    · by_cases hmem :
          (⟨s2.cells \ s1.cells, s2.count - s1.count⟩ : Sentence) ∉ kb
      · rw [if_pos hg, if_pos hnc, if_pos hmem]
        constructor
        · intro h
          exact ⟨hg.1, hg.2.1, hg.2.2.1, hg.2.2.2, hnc, hmem,
            (Option.some_inj.mp h).symm⟩
        · rintro ⟨-, -, -, -, -, -, rfl⟩
          rfl
      · rw [if_pos hg, if_pos hnc, if_neg hmem]
        rw [not_not] at hmem
        constructor
        · intro h
          exact absurd h (by simp)
        · rintro ⟨-, -, -, -, -, hmem2, rfl⟩
          exact absurd hmem hmem2
    · rw [if_pos hg, if_neg hnc]
      rw [not_not] at hnc
      constructor
      · intro h
        exact absurd h (by simp)
      · rintro ⟨-, -, -, -, hnc2, -, rfl⟩
        exact absurd hnc hnc2
  · rw [if_neg hg]
    constructor
    · intro h
      exact absurd h (by simp)
    · rintro ⟨h1, h2, h3, h4, -, -, rfl⟩
      exact absurd ⟨h1, h2, h3, h4⟩ hg

/-- Membership in the staged list of the resolution pass. -/
theorem mem_resolutionPass (kb : List Sentence) (t : Sentence) :
    t ∈ resolutionPass kb ↔
      ∃ s1 ∈ kb, ∃ s2 ∈ kb,
        s1.cells ⊆ s2.cells ∧ s1 ≠ s2 ∧
        0 < s1.cells.card ∧ 0 < s2.cells.card ∧
        s2.cells \ s1.cells ≠ ∅ ∧
        (⟨s2.cells \ s1.cells, s2.count - s1.count⟩ : Sentence) ∉ kb ∧
        t = ⟨s2.cells \ s1.cells, s2.count - s1.count⟩ := by
  unfold resolutionPass
  simp only [List.mem_flatMap, List.mem_filterMap]
  constructor
  · rintro ⟨s1, hs1, s2, hs2, h⟩
    exact ⟨s1, hs1, s2, hs2, (resolveCandidate_eq_some kb s1 s2 t).mp h⟩
  · rintro ⟨s1, hs1, s2, hs2, h⟩
    exact ⟨s1, hs1, s2, hs2, (resolveCandidate_eq_some kb s1 s2 t).mpr h⟩

/-- Everything staged by the resolution pass is absent from the knowledge
base it was derived from (the value-equality duplicate check). -/
theorem resolutionPass_not_mem (kb : List Sentence) (t : Sentence)
    (h : t ∈ resolutionPass kb) : t ∉ kb := by
  obtain ⟨s1, -, s2, -, -, -, -, -, -, hmem, rfl⟩ :=
    (mem_resolutionPass kb t).mp h
  exact hmem

/- ---------------------------------------------------------------------
   Neighbour computation and classification.
   --------------------------------------------------------------------- -/

/-- Every neighbour produced by the bounds-checked neighbour loop lies
inside the grid. -/
theorem neighbors_bounds (height width : ℕ) (cell : Cell) (p : Cell)
    (hp : p ∈ neighbors height width cell) :
    0 ≤ p.1 ∧ p.1 < (height : ℤ) ∧ 0 ≤ p.2 ∧ p.2 < (width : ℤ) := by
  unfold neighbors at hp
  obtain ⟨o, -, ho⟩ := List.mem_filterMap.mp hp
  by_cases hb : 0 ≤ cell.1 + o.1 ∧ cell.1 + o.1 < (height : ℤ) ∧
      0 ≤ cell.2 + o.2 ∧ cell.2 + o.2 < (width : ℤ)
  · rw [if_pos hb] at ho
    obtain rfl := Option.some_inj.mp ho
    exact hb
  · rw [if_neg hb] at ho
    exact absurd ho (by simp)

theorem mem_gridCells (height width : ℕ) (p : Cell) :
    p ∈ gridCells height width ↔
      0 ≤ p.1 ∧ p.1 < (height : ℤ) ∧ 0 ≤ p.2 ∧ p.2 < (width : ℤ) := by
  unfold gridCells
  simp only [Finset.mem_image, Finset.mem_product, Finset.mem_range]
  constructor
  · rintro ⟨⟨a, b⟩, ⟨ha, hb⟩, rfl⟩
    refine ⟨Int.ofNat_nonneg a, ?_, Int.ofNat_nonneg b, ?_⟩
    · show (a : ℤ) < (height : ℤ)
      exact_mod_cast ha
    · show (b : ℤ) < (width : ℤ)
      exact_mod_cast hb
  · rintro ⟨h1, h2, h3, h4⟩
    refine ⟨(p.1.toNat, p.2.toNat), ⟨?_, ?_⟩, ?_⟩
    · omega
    · omega
    · apply Prod.ext <;> simp <;> omega

theorem neighbors_mem_grid (height width : ℕ) (cell : Cell) (p : Cell)
    (hp : p ∈ neighbors height width cell) :
    p ∈ gridCells height width :=
  (mem_gridCells height width p).mpr (neighbors_bounds height width cell p hp)

theorem neighbors_nodup (height width : ℕ) (cell : Cell) :
    (neighbors height width cell).Nodup := by
  unfold neighbors
  apply List.Nodup.filterMap
  · intro o o' p hp hp'
    by_cases hb : 0 ≤ cell.1 + o.1 ∧ cell.1 + o.1 < (height : ℤ) ∧
        0 ≤ cell.2 + o.2 ∧ cell.2 + o.2 < (width : ℤ)
    · rw [Option.mem_def, if_pos hb] at hp
      by_cases hb' : 0 ≤ cell.1 + o'.1 ∧ cell.1 + o'.1 < (height : ℤ) ∧
          0 ≤ cell.2 + o'.2 ∧ cell.2 + o'.2 < (width : ℤ)
      · rw [Option.mem_def, if_pos hb'] at hp'
        obtain rfl := Option.some_inj.mp hp
        have h2 := Option.some_inj.mp hp'
        have e1 : o'.1 = o.1 := by
          have := congrArg Prod.fst h2
          simp at this
          omega
        have e2 : o'.2 = o.2 := by
          have := congrArg Prod.snd h2
          simp at this
          omega
        exact Prod.ext e1.symm e2.symm
      · rw [Option.mem_def, if_neg hb'] at hp'
        exact absurd hp' (by simp)
    · rw [Option.mem_def, if_neg hb] at hp
      exact absurd hp (by simp)
  · decide

/-- The unknown-neighbour sublist extracted by the classification loop. -/
def unknownFilter (σ : AIState) (l : List Cell) : List Cell :=
  l.filter (fun n =>
    decide (¬(n ∈ σ.moves_made ∨ n ∈ σ.safes) ∧ n ∉ σ.mines))

/-- The number of neighbours counted as already-known mines by the
classification loop. -/
def mineCount (σ : AIState) (l : List Cell) : ℕ :=
  l.countP (fun n =>
    decide (¬(n ∈ σ.moves_made ∨ n ∈ σ.safes) ∧ n ∈ σ.mines))

theorem classifyNeighbors_go (σ : AIState) (l : List Cell) :
    ∀ acc : List Cell × ℕ,
      l.foldl
        (fun acc n =>
          if n ∈ σ.moves_made ∨ n ∈ σ.safes then acc
          else if n ∈ σ.mines then (acc.1, acc.2 + 1)
          else (acc.1 ++ [n], acc.2)) acc =
      (acc.1 ++ unknownFilter σ l, acc.2 + mineCount σ l) := by
  induction l with
  | nil => intro acc; simp [unknownFilter, mineCount]
  | cons n l ih =>
    intro acc
    rw [List.foldl_cons]
    by_cases h1 : n ∈ σ.moves_made ∨ n ∈ σ.safes
    · rw [if_pos h1, ih]
      have hu : unknownFilter σ (n :: l) = unknownFilter σ l := by
        unfold unknownFilter
        rw [List.filter_cons]
        simp [h1]
      have hm : mineCount σ (n :: l) = mineCount σ l := by
        unfold mineCount
        rw [List.countP_cons]
        simp [h1]
      rw [hu, hm]
    · rw [if_neg h1]
      by_cases h2 : n ∈ σ.mines
      · rw [if_pos h2, ih]
        have hu : unknownFilter σ (n :: l) = unknownFilter σ l := by
          unfold unknownFilter
          rw [List.filter_cons]
          simp [h1, h2]
        have hm : mineCount σ (n :: l) = mineCount σ l + 1 := by
          unfold mineCount
          rw [List.countP_cons]
          simp [h1, h2]
        rw [hu, hm, Prod.mk.injEq]
        constructor
        · rfl
        · show acc.2 + 1 + mineCount σ l = acc.2 + (mineCount σ l + 1)
          omega
      · rw [if_neg h2, ih]
        have hu : unknownFilter σ (n :: l) = n :: unknownFilter σ l := by
          unfold unknownFilter
          rw [List.filter_cons]
          simp [h1, h2]
        have hm : mineCount σ (n :: l) = mineCount σ l := by
          unfold mineCount
          rw [List.countP_cons]
          simp [h1, h2]
        rw [hu, hm]
        simp

theorem classifyNeighbors_eq (σ : AIState) (l : List Cell) :
    classifyNeighbors σ l = (unknownFilter σ l, mineCount σ l) := by
  unfold classifyNeighbors
  rw [classifyNeighbors_go]
  simp

theorem mem_unknownFilter (σ : AIState) (l : List Cell) (x : Cell) :
    x ∈ unknownFilter σ l ↔
      x ∈ l ∧ ¬(x ∈ σ.moves_made ∨ x ∈ σ.safes) ∧ x ∉ σ.mines := by
  unfold unknownFilter
  simp [List.mem_filter]

theorem mineCount_eq_card (σ : AIState) (l : List Cell) (hnd : l.Nodup) :
    mineCount σ l =
      (l.toFinset.filter
        (fun n => ¬(n ∈ σ.moves_made ∨ n ∈ σ.safes) ∧ n ∈ σ.mines)).card := by
  unfold mineCount
  rw [List.countP_eq_length_filter]
  have hnd2 : (l.filter (fun n =>
      decide (¬(n ∈ σ.moves_made ∨ n ∈ σ.safes) ∧ n ∈ σ.mines))).Nodup :=
    hnd.filter _
  rw [← List.toFinset_card_of_nodup hnd2]
  congr 1
  ext x
  simp [List.mem_filter]

/- ---------------------------------------------------------------------
   Monotone evolution of the global sets, and the append-only shape of the
   knowledge base.
   --------------------------------------------------------------------- -/

/-- The grid dimensions never change, and the three global cell sets only
grow. -/
structure Evolves (σ τ : AIState) : Prop where
  h_eq : τ.height = σ.height
  w_eq : τ.width = σ.width
  moves_sub : σ.moves_made ⊆ τ.moves_made
  mines_sub : σ.mines ⊆ τ.mines
  safes_sub : σ.safes ⊆ τ.safes

theorem Evolves.erefl (σ : AIState) : Evolves σ σ :=
  ⟨Eq.refl _, Eq.refl _, Finset.Subset.refl _, Finset.Subset.refl _,
    Finset.Subset.refl _⟩

theorem Evolves.etrans {σ τ ρ : AIState} (h1 : Evolves σ τ)
    (h2 : Evolves τ ρ) : Evolves σ ρ :=
  ⟨h2.h_eq.trans h1.h_eq, h2.w_eq.trans h1.w_eq,
    h1.moves_sub.trans h2.moves_sub, h1.mines_sub.trans h2.mines_sub,
    h1.safes_sub.trans h2.safes_sub⟩

theorem evolves_mark_mine (σ : AIState) (c : Cell) :
    Evolves σ (σ.mark_mine c) :=
  ⟨rfl, rfl, Finset.Subset.refl _, Finset.subset_insert _ _,
    Finset.Subset.refl _⟩

theorem evolves_mark_safe (σ : AIState) (c : Cell) :
    Evolves σ (σ.mark_safe c) :=
  ⟨rfl, rfl, Finset.Subset.refl _, Finset.Subset.refl _,
    Finset.subset_insert _ _⟩

theorem evolves_markMineList (σ : AIState) (l : List Cell) :
    Evolves σ (markMineList σ l) := by
  induction l generalizing σ with
  | nil => exact Evolves.erefl σ
  | cons c l ih =>
    exact (evolves_mark_mine σ c).etrans (ih (σ.mark_mine c))

theorem evolves_markSafeList (σ : AIState) (l : List Cell) :
    Evolves σ (markSafeList σ l) := by
  induction l generalizing σ with
  | nil => exact Evolves.erefl σ
  | cons c l ih =>
    exact (evolves_mark_safe σ c).etrans (ih (σ.mark_safe c))

theorem evolves_simplifyAt (p : AIState × Bool) (i : ℕ) :
    Evolves p.1 (simplifyAt p i).1 := by
  simp only [simplifyAt]
  split_ifs
  all_goals
    first
      | exact (evolves_markMineList _ _).etrans (evolves_markSafeList _ _)
      | exact evolves_markMineList _ _
      | exact evolves_markSafeList _ _
      | exact Evolves.erefl _

theorem evolves_fold_simplify (σ : AIState) (l : List ℕ)
    (p : AIState × Bool) (hp : Evolves σ p.1) :
    Evolves σ (l.foldl simplifyAt p).1 := by
  induction l generalizing p with
  | nil => exact hp
  | cons i l ih =>
    rw [List.foldl_cons]
    exact ih _ (hp.etrans (evolves_simplifyAt p i))

theorem evolves_simplificationPass (σ : AIState) :
    Evolves σ (simplificationPass σ).1 :=
  evolves_fold_simplify σ _ _ (Evolves.erefl σ)

theorem evolves_inferStep (σ : AIState) : Evolves σ (inferStep σ).1 := by
  unfold inferStep
  have h := evolves_simplificationPass σ
  exact ⟨h.h_eq, h.w_eq, h.moves_sub, h.mines_sub, h.safes_sub⟩

theorem evolves_inferLoop (fuel : ℕ) (σ σf : AIState)
    (h : inferLoop fuel σ = some σf) : Evolves σ σf := by
  induction fuel generalizing σ with
  | zero => exact absurd h (by simp [inferLoop])
  | succ n ih =>
    unfold inferLoop at h
    by_cases hc : (inferStep σ).2
    · rw [if_pos hc] at h
      exact (evolves_inferStep σ).etrans (ih _ h)
    · rw [if_neg hc] at h
      obtain rfl := Option.some_inj.mp h
      exact evolves_inferStep σ

theorem evolves_preObserve (σ : AIState) (cell : Cell) (count : ℤ) :
    Evolves σ (preObserve σ cell count) := by
  simp only [preObserve]
  split_ifs
  · exact ⟨rfl, rfl, Finset.subset_insert _ _, Finset.Subset.refl _,
      Finset.subset_insert _ _⟩
  · exact ⟨rfl, rfl, Finset.subset_insert _ _, Finset.Subset.refl _,
      Finset.subset_insert _ _⟩

theorem evolves_add_knowledge (fuel : ℕ) (σ σf : AIState) (cell : Cell)
    (count : ℤ) (h : add_knowledge fuel σ cell count = some σf) :
    Evolves σ σf :=
  (evolves_preObserve σ cell count).etrans (evolves_inferLoop fuel _ σf h)

theorem evolves_applyOp (fuel : ℕ) (σ σf : AIState) (op : AgentOp)
    (h : applyOp fuel σ op = some σf) : Evolves σ σf := by
  cases op with
  | obs c k => exact evolves_add_knowledge fuel σ σf c k h
  | mine c =>
    obtain rfl := Option.some_inj.mp h
    exact evolves_mark_mine σ c
  | safe c =>
    obtain rfl := Option.some_inj.mp h
    exact evolves_mark_safe σ c

theorem evolves_runOps (fuel : ℕ) (ops : List AgentOp) (σ σf : AIState)
    (h : runOps fuel σ ops = some σf) : Evolves σ σf := by
  induction ops generalizing σ with
  | nil =>
    obtain rfl := Option.some_inj.mp h
    exact Evolves.erefl σ
  | cons op rest ih =>
    unfold runOps at h
    cases hop : applyOp fuel σ op with
    | none => rw [hop] at h; exact absurd h (by simp)
    | some σ1 =>
      rw [hop] at h
      exact (evolves_applyOp fuel σ σ1 op hop).etrans (ih σ1 h)

theorem evolves_runObs (fuel : ℕ) (obs : List (Cell × ℤ)) (σ σf : AIState)
    (h : runObs fuel σ obs = some σf) : Evolves σ σf := by
  induction obs generalizing σ with
  | nil =>
    obtain rfl := Option.some_inj.mp h
    exact Evolves.erefl σ
  | cons p rest ih =>
    unfold runObs at h
    cases hop : add_knowledge fuel σ p.1 p.2 with
    | none => rw [hop] at h; exact absurd h (by simp)
    | some σ1 =>
      rw [hop] at h
      exact (evolves_add_knowledge fuel σ σ1 p.1 p.2 hop).etrans (ih σ1 h)

theorem getD_map_of_lt (l : List Sentence) (f : Sentence → Sentence) (i : ℕ)
    (h : i < l.length) :
    (l.map f).getD i defaultSentence = f (l.getD i defaultSentence) := by
  have h2 : i < (l.map f).length := by simpa using h
  rw [List.getD_eq_getElem _ _ h2, List.getD_eq_getElem _ _ h,
    List.getElem_map]

theorem getD_append_of_lt (l l' : List Sentence) (i : ℕ)
    (h : i < l.length) :
    ((l ++ l').getD i defaultSentence) = l.getD i defaultSentence := by
  have h2 : i < (l ++ l').length := by
    rw [List.length_append]
    omega
  rw [List.getD_eq_getElem _ _ h2, List.getD_eq_getElem _ _ h,
    List.getElem_append_left h]

/-- The knowledge base is append-only: it never shrinks, existing entries
keep their positions and only lose cells, and an entry whose cell set is
empty is never modified again. -/
structure KbEvolves (σ τ : AIState) : Prop where
  len_le : σ.knowledge.length ≤ τ.knowledge.length
  cells_sub : ∀ i, i < σ.knowledge.length →
    (τ.knowledge.getD i defaultSentence).cells ⊆
      (σ.knowledge.getD i defaultSentence).cells
  empty_fixed : ∀ i, i < σ.knowledge.length →
    (σ.knowledge.getD i defaultSentence).cells = ∅ →
    τ.knowledge.getD i defaultSentence = σ.knowledge.getD i defaultSentence

theorem KbEvolves.krefl (σ : AIState) : KbEvolves σ σ :=
  ⟨Nat.le_refl _, fun _ _ => Finset.Subset.refl _, fun _ _ _ => Eq.refl _⟩

theorem KbEvolves.ktrans {σ τ ρ : AIState} (h1 : KbEvolves σ τ)
    (h2 : KbEvolves τ ρ) : KbEvolves σ ρ := by
  refine ⟨h1.len_le.trans h2.len_le, ?_, ?_⟩
  · intro i hi
    exact (h2.cells_sub i (Nat.lt_of_lt_of_le hi h1.len_le)).trans
      (h1.cells_sub i hi)
  · intro i hi he
    have hmid := h1.empty_fixed i hi he
    have hend := h2.empty_fixed i (Nat.lt_of_lt_of_le hi h1.len_le)
      (by rw [hmid]; exact he)
    rw [hend, hmid]

theorem kbEvolves_mark_mine (σ : AIState) (c : Cell) :
    KbEvolves σ (σ.mark_mine c) := by
  refine ⟨?_, ?_, ?_⟩
  · rw [AIState.mark_mine_knowledge, List.length_map]
  · intro i hi
    rw [AIState.mark_mine_knowledge, getD_map_of_lt _ _ i hi,
      Sentence.mark_mine_cells]
    exact Finset.erase_subset _ _
  · intro i hi he
    rw [AIState.mark_mine_knowledge, getD_map_of_lt _ _ i hi,
      Sentence.mark_mine_of_empty _ _ he]

theorem kbEvolves_mark_safe (σ : AIState) (c : Cell) :
    KbEvolves σ (σ.mark_safe c) := by
  refine ⟨?_, ?_, ?_⟩
  · rw [AIState.mark_safe_knowledge, List.length_map]
  · intro i hi
    rw [AIState.mark_safe_knowledge, getD_map_of_lt _ _ i hi,
      Sentence.mark_safe_cells]
    exact Finset.erase_subset _ _
  · intro i hi he
    rw [AIState.mark_safe_knowledge, getD_map_of_lt _ _ i hi,
      Sentence.mark_safe_of_empty _ _ he]

theorem kbEvolves_markMineList (σ : AIState) (l : List Cell) :
    KbEvolves σ (markMineList σ l) := by
  induction l generalizing σ with
  | nil => exact KbEvolves.krefl σ
  | cons c l ih =>
    exact (kbEvolves_mark_mine σ c).ktrans (ih (σ.mark_mine c))

theorem kbEvolves_markSafeList (σ : AIState) (l : List Cell) :
    KbEvolves σ (markSafeList σ l) := by
  induction l generalizing σ with
  | nil => exact KbEvolves.krefl σ
  | cons c l ih =>
    exact (kbEvolves_mark_safe σ c).ktrans (ih (σ.mark_safe c))

theorem kbEvolves_simplifyAt (p : AIState × Bool) (i : ℕ) :
    KbEvolves p.1 (simplifyAt p i).1 := by
  simp only [simplifyAt]
  split_ifs
  all_goals
    first
      | exact (kbEvolves_markMineList _ _).ktrans (kbEvolves_markSafeList _ _)
      | exact kbEvolves_markMineList _ _
      | exact kbEvolves_markSafeList _ _
      | exact KbEvolves.krefl _

theorem kbEvolves_fold_simplify (σ : AIState) (l : List ℕ)
    (p : AIState × Bool) (hp : KbEvolves σ p.1) :
    KbEvolves σ (l.foldl simplifyAt p).1 := by
  induction l generalizing p with
  | nil => exact hp
  | cons i l ih =>
    rw [List.foldl_cons]
    exact ih _ (hp.ktrans (kbEvolves_simplifyAt p i))

theorem kbEvolves_simplificationPass (σ : AIState) :
    KbEvolves σ (simplificationPass σ).1 :=
  kbEvolves_fold_simplify σ _ _ (KbEvolves.krefl σ)

theorem kbEvolves_append (σ : AIState) (staged : List Sentence) :
    KbEvolves σ { σ with knowledge := σ.knowledge ++ staged } := by
  refine ⟨?_, ?_, ?_⟩
  · rw [List.length_append]
    omega
  · intro i hi
    rw [getD_append_of_lt _ _ i hi]
  · intro i hi _
    rw [getD_append_of_lt _ _ i hi]

theorem kbEvolves_inferStep (σ : AIState) : KbEvolves σ (inferStep σ).1 :=
  (kbEvolves_simplificationPass σ).ktrans
    (kbEvolves_append (simplificationPass σ).1 _)

theorem kbEvolves_inferLoop (fuel : ℕ) (σ σf : AIState)
    (h : inferLoop fuel σ = some σf) : KbEvolves σ σf := by
  induction fuel generalizing σ with
  | zero => exact absurd h (by simp [inferLoop])
  | succ n ih =>
    unfold inferLoop at h
    by_cases hc : (inferStep σ).2
    · rw [if_pos hc] at h
      exact (kbEvolves_inferStep σ).ktrans (ih _ h)
    · rw [if_neg hc] at h
      obtain rfl := Option.some_inj.mp h
      exact kbEvolves_inferStep σ

theorem KbEvolves.of_knowledge_eq {σ τ : AIState}
    (h : τ.knowledge = σ.knowledge) : KbEvolves σ τ :=
  ⟨by rw [h], fun i _ => by rw [h], fun i _ _ => by rw [h]⟩

theorem kbEvolves_preObserve (σ : AIState) (cell : Cell) (count : ℤ) :
    KbEvolves σ (preObserve σ cell count) := by
  simp only [preObserve]
  have h0 : KbEvolves σ { σ with moves_made := insert cell σ.moves_made } :=
    KbEvolves.of_knowledge_eq rfl
  split_ifs
  · exact (h0.ktrans (kbEvolves_mark_safe _ cell)).ktrans (kbEvolves_append _ _)
  · exact h0.ktrans (kbEvolves_mark_safe _ cell)

theorem kbEvolves_add_knowledge (fuel : ℕ) (σ σf : AIState) (cell : Cell)
    (count : ℤ) (h : add_knowledge fuel σ cell count = some σf) :
    KbEvolves σ σf :=
  (kbEvolves_preObserve σ cell count).ktrans
    (kbEvolves_inferLoop fuel _ σf h)

theorem kbEvolves_applyOp (fuel : ℕ) (σ σf : AIState) (op : AgentOp)
    (h : applyOp fuel σ op = some σf) : KbEvolves σ σf := by
  cases op with
  | obs c k => exact kbEvolves_add_knowledge fuel σ σf c k h
  | mine c =>
    obtain rfl := Option.some_inj.mp h
    exact kbEvolves_mark_mine σ c
  | safe c =>
    obtain rfl := Option.some_inj.mp h
    exact kbEvolves_mark_safe σ c

theorem kbEvolves_runOps (fuel : ℕ) (ops : List AgentOp) (σ σf : AIState)
    (h : runOps fuel σ ops = some σf) : KbEvolves σ σf := by
  induction ops generalizing σ with
  | nil =>
    obtain rfl := Option.some_inj.mp h
    exact KbEvolves.krefl σ
  | cons op rest ih =>
    unfold runOps at h
    cases hop : applyOp fuel σ op with
    | none => rw [hop] at h; exact absurd h (by simp)
    | some σ1 =>
      rw [hop] at h
      exact (kbEvolves_applyOp fuel σ σ1 op hop).ktrans (ih σ1 h)

/- ---------------------------------------------------------------------
   Soundness with respect to an actual mine assignment.  `M` is the set of
   cells that really are mines; a consistent clue sequence keeps every
   sentence true of `M`, which yields the count invariant, the disjointness
   of the mine/safe sets, and termination of the fixpoint loop.
   --------------------------------------------------------------------- -/

def resolvedSet (σ : AIState) : Finset Cell := σ.mines ∪ σ.safes

structure Sound (M : Finset Cell) (σ : AIState) : Prop where
  sent_true : ∀ s ∈ σ.knowledge, s.count = ((s.cells ∩ M).card : ℤ)
  sent_grid : ∀ s ∈ σ.knowledge, s.cells ⊆ gridCells σ.height σ.width
  sent_fresh : ∀ s ∈ σ.knowledge, ∀ c ∈ s.cells, c ∉ σ.mines ∧ c ∉ σ.safes
  mines_sub : σ.mines ⊆ M
  safes_disj : ∀ c ∈ σ.safes, c ∉ M
  moves_sub : σ.moves_made ⊆ σ.safes

theorem sound_initState (M : Finset Cell) (h w : ℕ) :
    Sound M (initState h w) := by
  refine ⟨?_, ?_, ?_, ?_, ?_, ?_⟩ <;> simp [initState]

theorem sound_mark_mine {M : Finset Cell} {σ : AIState} {c : Cell}
    (h : Sound M σ) (hc : c ∈ M) : Sound M (σ.mark_mine c) := by
  refine ⟨?_, ?_, ?_, ?_, ?_, ?_⟩
  · intro s' hs'
    rw [AIState.mark_mine_knowledge] at hs'
    obtain ⟨s, hs, rfl⟩ := List.mem_map.mp hs'
    unfold Sentence.mark_mine
    by_cases hcs : c ∈ s.cells
    · rw [if_pos hcs]
      have hset : s.cells.erase c ∩ M = (s.cells ∩ M).erase c := by
        ext x
        simp only [Finset.mem_inter, Finset.mem_erase]
        tauto
      have hcm : c ∈ s.cells ∩ M := Finset.mem_inter.mpr ⟨hcs, hc⟩
      have hcard : ((s.cells ∩ M).erase c).card = (s.cells ∩ M).card - 1 :=
        Finset.card_erase_of_mem hcm
      have hpos : 1 ≤ (s.cells ∩ M).card := Finset.card_pos.mpr ⟨c, hcm⟩
      have := h.sent_true s hs
      simp only [hset, hcard]
      omega
    · rw [if_neg hcs]
      exact h.sent_true s hs
  · intro s' hs'
    rw [AIState.mark_mine_knowledge] at hs'
    obtain ⟨s, hs, rfl⟩ := List.mem_map.mp hs'
    rw [Sentence.mark_mine_cells]
    exact (Finset.erase_subset _ _).trans (h.sent_grid s hs)
  · intro s' hs' x hx
    rw [AIState.mark_mine_knowledge] at hs'
    obtain ⟨s, hs, rfl⟩ := List.mem_map.mp hs'
    rw [Sentence.mark_mine_cells, Finset.mem_erase] at hx
    have := h.sent_fresh s hs x hx.2
    rw [AIState.mark_mine_mines, AIState.mark_mine_safes]
    constructor
    · rw [Finset.mem_insert]
      push_neg
      exact ⟨hx.1, this.1⟩
    · exact this.2
  · rw [AIState.mark_mine_mines]
    exact Finset.insert_subset hc h.mines_sub
  · rw [AIState.mark_mine_safes]
    exact h.safes_disj
  · rw [AIState.mark_mine_moves, AIState.mark_mine_safes]
    exact h.moves_sub

theorem sound_mark_safe {M : Finset Cell} {σ : AIState} {c : Cell}
    (h : Sound M σ) (hc : c ∉ M) : Sound M (σ.mark_safe c) := by
  refine ⟨?_, ?_, ?_, ?_, ?_, ?_⟩
  · intro s' hs'
    rw [AIState.mark_safe_knowledge] at hs'
    obtain ⟨s, hs, rfl⟩ := List.mem_map.mp hs'
    unfold Sentence.mark_safe
    by_cases hcs : c ∈ s.cells
    · rw [if_pos hcs]
      have hset : s.cells.erase c ∩ M = s.cells ∩ M := by
        ext x
        simp only [Finset.mem_inter, Finset.mem_erase]
        constructor
        · tauto
        · rintro ⟨hx1, hx2⟩
          exact ⟨⟨fun he => hc (he ▸ hx2), hx1⟩, hx2⟩
      rw [hset]
      exact h.sent_true s hs
    · rw [if_neg hcs]
      exact h.sent_true s hs
  · intro s' hs'
    rw [AIState.mark_safe_knowledge] at hs'
    obtain ⟨s, hs, rfl⟩ := List.mem_map.mp hs'
    rw [Sentence.mark_safe_cells]
    exact (Finset.erase_subset _ _).trans (h.sent_grid s hs)
  · intro s' hs' x hx
    rw [AIState.mark_safe_knowledge] at hs'
    obtain ⟨s, hs, rfl⟩ := List.mem_map.mp hs'
    rw [Sentence.mark_safe_cells, Finset.mem_erase] at hx
    have := h.sent_fresh s hs x hx.2
    rw [AIState.mark_safe_mines, AIState.mark_safe_safes]
    constructor
    · exact this.1
    · rw [Finset.mem_insert]
      push_neg
      exact ⟨hx.1, this.2⟩
  · rw [AIState.mark_safe_mines]
    exact h.mines_sub
  · rw [AIState.mark_safe_safes]
    intro x hx
    rcases Finset.mem_insert.mp hx with rfl | hx2
    · exact hc
    · exact h.safes_disj x hx2
  · rw [AIState.mark_safe_moves, AIState.mark_safe_safes]
    exact h.moves_sub.trans (Finset.subset_insert _ _)

theorem sound_markMineList {M : Finset Cell} {σ : AIState} {l : List Cell}
    (h : Sound M σ) (hl : ∀ c ∈ l, c ∈ M) :
    Sound M (markMineList σ l) := by
  induction l generalizing σ with
  | nil => exact h
  | cons c l ih =>
    exact ih (sound_mark_mine h (hl c (List.mem_cons_self c l)))
      (fun x hx => hl x (List.mem_cons_of_mem c hx))

theorem sound_markSafeList {M : Finset Cell} {σ : AIState} {l : List Cell}
    (h : Sound M σ) (hl : ∀ c ∈ l, c ∉ M) :
    Sound M (markSafeList σ l) := by
  induction l generalizing σ with
  | nil => exact h
  | cons c l ih =>
    exact ih (sound_mark_safe h (hl c (List.mem_cons_self c l)))
      (fun x hx => hl x (List.mem_cons_of_mem c hx))

theorem known_mines_subset (s : Sentence) : s.known_mines ⊆ s.cells := by
  unfold Sentence.known_mines
  split
  · exact Finset.Subset.refl _
  · exact Finset.empty_subset _

theorem known_safes_subset (s : Sentence) : s.known_safes ⊆ s.cells := by
  unfold Sentence.known_safes
  split
  · exact Finset.Subset.refl _
  · exact Finset.empty_subset _

/-- When a sentence is true of the assignment `M` and all its remaining
cells must be mines, those cells really are in `M`. -/
theorem known_mines_sound {M : Finset Cell} {s : Sentence}
    (h : s.count = ((s.cells ∩ M).card : ℤ)) :
    ∀ c ∈ s.known_mines, c ∈ M := by
  unfold Sentence.known_mines
  split
  · rename_i hcc
    intro c hc
    rw [h] at hcc
    have hsub : s.cells ∩ M ⊆ s.cells := Finset.inter_subset_left
    have hcard : s.cells.card ≤ (s.cells ∩ M).card := by
      exact_mod_cast Int.le_of_eq hcc
    have heq : s.cells ∩ M = s.cells :=
      Finset.eq_of_subset_of_card_le hsub hcard
    have : c ∈ s.cells ∩ M := heq.symm ▸ hc
    exact (Finset.mem_inter.mp this).2
  · intro c hc
    exact absurd hc (Finset.not_mem_empty c)

/-- When a sentence is true of `M` and its count is zero, none of its cells
are in `M`. -/
theorem known_safes_sound {M : Finset Cell} {s : Sentence}
    (h : s.count = ((s.cells ∩ M).card : ℤ)) :
    ∀ c ∈ s.known_safes, c ∉ M := by
  unfold Sentence.known_safes
  split
  · rename_i hcc
    intro c hc hcm
    rw [hcc] at h
    have : s.cells ∩ M = ∅ := by
      have := h.symm
      exact_mod_cast Finset.card_eq_zero.mp (by exact_mod_cast this)
    have : c ∈ (∅ : Finset Cell) := this ▸ Finset.mem_inter.mpr ⟨hc, hcm⟩
    exact absurd this (Finset.not_mem_empty c)
  · intro c hc
    exact absurd hc (Finset.not_mem_empty c)

theorem getD_mem_of_lt (l : List Sentence) (i : ℕ) (h : i < l.length) :
    l.getD i defaultSentence ∈ l := by
  rw [List.getD_eq_getElem _ _ h]
  exact List.getElem_mem h

theorem getD_default_of_le (l : List Sentence) (i : ℕ) (h : l.length ≤ i) :
    l.getD i defaultSentence = defaultSentence := by
  rw [List.getD_eq_default]
  exact h

theorem Evolves.resolved_sub {σ τ : AIState} (h : Evolves σ τ) :
    resolvedSet σ ⊆ resolvedSet τ :=
  Finset.union_subset_union h.mines_sub h.safes_sub

theorem mem_mines_markMineList (σ : AIState) (l : List Cell) (c : Cell)
    (hc : c ∈ l) : c ∈ (markMineList σ l).mines := by
  induction l generalizing σ with
  | nil => exact absurd hc (by simp)
  | cons d l ih =>
    simp only [markMineList, List.foldl_cons]
    rcases List.mem_cons.mp hc with rfl | h2
    · exact (evolves_markMineList (σ.mark_mine c) l).mines_sub
        (by rw [AIState.mark_mine_mines]; exact Finset.mem_insert_self c _)
    · exact ih (σ.mark_mine d) h2

theorem mem_safes_markSafeList (σ : AIState) (l : List Cell) (c : Cell)
    (hc : c ∈ l) : c ∈ (markSafeList σ l).safes := by
  induction l generalizing σ with
  | nil => exact absurd hc (by simp)
  | cons d l ih =>
    simp only [markSafeList, List.foldl_cons]
    rcases List.mem_cons.mp hc with rfl | h2
    · exact (evolves_markSafeList (σ.mark_safe c) l).safes_sub
        (by rw [AIState.mark_safe_safes]; exact Finset.mem_insert_self c _)
    · exact ih (σ.mark_safe d) h2

theorem default_known_mines : defaultSentence.known_mines = ∅ := by
  simp [defaultSentence, Sentence.known_mines]

theorem default_known_safes : defaultSentence.known_safes = ∅ := by
  simp [defaultSentence, Sentence.known_safes]

/-- Invariant carried through the simplification pass: the state stays
sound, evolves monotonically from the pass's starting state, a raised
`changed` flag witnesses a grid cell newly moved into the resolved set, and
an unraised flag means nothing has happened yet. -/
def PassInv (M : Finset Cell) (σ0 : AIState) (p : AIState × Bool) : Prop :=
  Sound M p.1 ∧ Evolves σ0 p.1 ∧
  (p.2 = true → ∃ c ∈ gridCells σ0.height σ0.width,
      c ∉ resolvedSet σ0 ∧ c ∈ resolvedSet p.1) ∧
  (p.2 = false → p.1 = σ0)

theorem mark_mines_stage {M : Finset Cell} {σ0 σcur : AIState} {i : ℕ}
    (hS : Sound M σcur) (hE : Evolves σ0 σcur)
    (hm : (σcur.knowledge.getD i defaultSentence).known_mines ≠ ∅) :
    Sound M (markMineList σcur
        (cellSort (σcur.knowledge.getD i defaultSentence).known_mines)) ∧
    Evolves σ0 (markMineList σcur
        (cellSort (σcur.knowledge.getD i defaultSentence).known_mines)) ∧
    ∃ c ∈ gridCells σ0.height σ0.width, c ∉ resolvedSet σ0 ∧
      c ∈ resolvedSet (markMineList σcur
        (cellSort (σcur.knowledge.getD i defaultSentence).known_mines)) := by
  set s := σcur.knowledge.getD i defaultSentence with hs_def
  have hmem : s ∈ σcur.knowledge := by
    by_cases hi : i < σcur.knowledge.length
    · exact hs_def ▸ getD_mem_of_lt _ i hi
    · exfalso
      apply hm
      rw [hs_def, getD_default_of_le _ i (Nat.le_of_not_lt hi)]
      exact default_known_mines
  have htrue := hS.sent_true s hmem
  have hsubM : ∀ c ∈ cellSort s.known_mines, c ∈ M := by
    intro c hc
    exact known_mines_sound htrue c (mem_cellSort.mp hc)
  refine ⟨sound_markMineList hS hsubM,
    hE.etrans (evolves_markMineList _ _), ?_⟩
  obtain ⟨c, hc⟩ := Finset.nonempty_iff_ne_empty.mpr hm
  have hcc : c ∈ s.cells := known_mines_subset s hc
  have hfresh := hS.sent_fresh s hmem c hcc
  refine ⟨c, ?_, ?_, ?_⟩
  · have := hS.sent_grid s hmem hcc
    rw [hE.h_eq, hE.w_eq] at this
    exact this
  · intro hres
    rcases Finset.mem_union.mp (hE.resolved_sub hres) with h1 | h2
    · exact hfresh.1 h1
    · exact hfresh.2 h2
  · exact Finset.mem_union.mpr
      (Or.inl (mem_mines_markMineList σcur _ c
        (mem_cellSort.mpr hc)))

theorem mark_safes_stage {M : Finset Cell} {σ0 σcur : AIState} {i : ℕ}
    (hS : Sound M σcur) (hE : Evolves σ0 σcur)
    (hm : (σcur.knowledge.getD i defaultSentence).known_safes ≠ ∅) :
    Sound M (markSafeList σcur
        (cellSort (σcur.knowledge.getD i defaultSentence).known_safes)) ∧
    Evolves σ0 (markSafeList σcur
        (cellSort (σcur.knowledge.getD i defaultSentence).known_safes)) ∧
    ∃ c ∈ gridCells σ0.height σ0.width, c ∉ resolvedSet σ0 ∧
      c ∈ resolvedSet (markSafeList σcur
        (cellSort (σcur.knowledge.getD i defaultSentence).known_safes)) := by
  set s := σcur.knowledge.getD i defaultSentence with hs_def
  have hmem : s ∈ σcur.knowledge := by
    by_cases hi : i < σcur.knowledge.length
    · exact hs_def ▸ getD_mem_of_lt _ i hi
    · exfalso
      apply hm
      rw [hs_def, getD_default_of_le _ i (Nat.le_of_not_lt hi)]
      exact default_known_safes
  have htrue := hS.sent_true s hmem
  have hsubM : ∀ c ∈ cellSort s.known_safes, c ∉ M := by
    intro c hc
    exact known_safes_sound htrue c (mem_cellSort.mp hc)
  refine ⟨sound_markSafeList hS hsubM,
    hE.etrans (evolves_markSafeList _ _), ?_⟩
  obtain ⟨c, hc⟩ := Finset.nonempty_iff_ne_empty.mpr hm
  have hcc : c ∈ s.cells := known_safes_subset s hc
  have hfresh := hS.sent_fresh s hmem c hcc
  refine ⟨c, ?_, ?_, ?_⟩
  · have := hS.sent_grid s hmem hcc
    rw [hE.h_eq, hE.w_eq] at this
    exact this
  · intro hres
    rcases Finset.mem_union.mp (hE.resolved_sub hres) with h1 | h2
    · exact hfresh.1 h1
    · exact hfresh.2 h2
  · exact Finset.mem_union.mpr
      (Or.inr (mem_safes_markSafeList σcur _ c
        (mem_cellSort.mpr hc)))

theorem passInv_simplifyAt (M : Finset Cell) (σ0 : AIState)
    (p : AIState × Bool) (i : ℕ) (hp : PassInv M σ0 p) :
    PassInv M σ0 (simplifyAt p i) := by
  obtain ⟨hS, hE, hflag, hid⟩ := hp
  simp only [simplifyAt]
  split_ifs with h1 h2 h3
  · -- mines stage fired, then safes stage fired on the marked state
    obtain ⟨hS1, hE1, hw1⟩ := mark_mines_stage hS hE h1
    obtain ⟨hS2, hE2, hw2⟩ := mark_safes_stage hS1 hE1 h2
    exact ⟨hS2, hE2, fun _ => hw2, fun hff => absurd hff (by simp)⟩
  · obtain ⟨hS1, hE1, hw1⟩ := mark_mines_stage hS hE h1
    exact ⟨hS1, hE1, fun _ => hw1, fun hff => absurd hff (by simp)⟩
  · obtain ⟨hS1, hE1, hw1⟩ := mark_safes_stage hS hE h3
    exact ⟨hS1, hE1, fun _ => hw1, fun hff => absurd hff (by simp)⟩
  · exact ⟨hS, hE, hflag, hid⟩

theorem passInv_fold (M : Finset Cell) (σ0 : AIState) (l : List ℕ)
    (p : AIState × Bool) (hp : PassInv M σ0 p) :
    PassInv M σ0 (l.foldl simplifyAt p) := by
  induction l generalizing p with
  | nil => exact hp
  | cons i l ih =>
    rw [List.foldl_cons]
    exact ih _ (passInv_simplifyAt M σ0 p i hp)

theorem simplificationPass_spec (M : Finset Cell) (σ : AIState)
    (h : Sound M σ) : PassInv M σ (simplificationPass σ) := by
  unfold simplificationPass
  exact passInv_fold M σ _ (σ, false)
    ⟨h, Evolves.erefl σ, fun hff => absurd hff (by simp), fun _ => rfl⟩

theorem sound_resolution_staged {M : Finset Cell} {σ : AIState}
    (h : Sound M σ) {t : Sentence} (ht : t ∈ resolutionPass σ.knowledge) :
    t.count = ((t.cells ∩ M).card : ℤ) ∧
    t.cells ⊆ gridCells σ.height σ.width ∧
    ∀ c ∈ t.cells, c ∉ σ.mines ∧ c ∉ σ.safes := by
  obtain ⟨s1, hs1, s2, hs2, hsub, hne, hc1, hc2, hncne, hnmem, rfl⟩ :=
    (mem_resolutionPass _ t).mp ht
  refine ⟨?_, ?_, ?_⟩
  · have h1 := h.sent_true s1 hs1
    have h2 := h.sent_true s2 hs2
    have hset : (s2.cells \ s1.cells) ∩ M =
        (s2.cells ∩ M) \ (s1.cells ∩ M) := by
      ext x
      simp only [Finset.mem_inter, Finset.mem_sdiff]
      constructor
      · rintro ⟨⟨hx2, hx1⟩, hxM⟩
        exact ⟨⟨hx2, hxM⟩, fun hx => hx1 hx.1⟩
      · rintro ⟨⟨hx2, hxM⟩, hx1⟩
        exact ⟨⟨hx2, fun hh => hx1 ⟨hh, hxM⟩⟩, hxM⟩
    have hsub2 : s1.cells ∩ M ⊆ s2.cells ∩ M :=
      Finset.inter_subset_inter hsub (Finset.Subset.refl M)
    have hcard : ((s2.cells \ s1.cells) ∩ M).card =
        (s2.cells ∩ M).card - (s1.cells ∩ M).card := by
      rw [hset, Finset.card_sdiff hsub2]
    have hle : (s1.cells ∩ M).card ≤ (s2.cells ∩ M).card :=
      Finset.card_le_card hsub2
    show s2.count - s1.count = (((s2.cells \ s1.cells) ∩ M).card : ℤ)
    rw [hcard]
    omega
  · exact Finset.sdiff_subset.trans (h.sent_grid s2 hs2)
  · intro c hc
    exact h.sent_fresh s2 hs2 c (Finset.mem_sdiff.mp hc).1

theorem sound_inferStep (M : Finset Cell) (σ : AIState) (h : Sound M σ) :
    Sound M (inferStep σ).1 := by
  obtain ⟨hS, hE, -, -⟩ := simplificationPass_spec M σ h
  simp only [inferStep]
  refine ⟨?_, ?_, ?_, hS.mines_sub, hS.safes_disj, hS.moves_sub⟩
  · intro s hs
    rcases List.mem_append.mp hs with h1 | h2
    · exact hS.sent_true s h1
    · exact (sound_resolution_staged hS h2).1
  · intro s hs
    rcases List.mem_append.mp hs with h1 | h2
    · exact hS.sent_grid s h1
    · exact (sound_resolution_staged hS h2).2.1
  · intro s hs
    rcases List.mem_append.mp hs with h1 | h2
    · exact hS.sent_fresh s h1
    · exact (sound_resolution_staged hS h2).2.2

/- ---------------------------------------------------------------------
   Termination measure for the `while changed` loop under soundness.
   --------------------------------------------------------------------- -/

def kbCellSets (σ : AIState) : Finset (Finset Cell) :=
  (σ.knowledge.map Sentence.cells).toFinset

def measure1 (σ : AIState) : ℕ :=
  (gridCells σ.height σ.width \ resolvedSet σ).card

def measure2 (σ : AIState) : ℕ :=
  ((gridCells σ.height σ.width).powerset \ kbCellSets σ).card

def aiMeasure (σ : AIState) : ℕ :=
  measure1 σ * ((gridCells σ.height σ.width).powerset.card + 1) + measure2 σ

theorem inferStep_flag (σ : AIState) :
    (inferStep σ).2 = ((simplificationPass σ).2 ||
      !(resolutionPass (simplificationPass σ).1.knowledge).isEmpty) := rfl

theorem inferStep_state (σ : AIState) :
    (inferStep σ).1 = { (simplificationPass σ).1 with
      knowledge := (simplificationPass σ).1.knowledge ++
        resolutionPass (simplificationPass σ).1.knowledge } := rfl

theorem inferStep_measure_lt (M : Finset Cell) (σ : AIState)
    (h : Sound M σ) (hflag : (inferStep σ).2 = true) :
    aiMeasure (inferStep σ).1 < aiMeasure σ := by
  obtain ⟨hS, hE, hwit, hid⟩ := simplificationPass_spec M σ h
  have hh : (inferStep σ).1.height = σ.height := (evolves_inferStep σ).h_eq
  have hw : (inferStep σ).1.width = σ.width := (evolves_inferStep σ).w_eq
  have hres : resolvedSet (inferStep σ).1 =
      resolvedSet (simplificationPass σ).1 := rfl
  have hressub : resolvedSet σ ⊆ resolvedSet (inferStep σ).1 :=
    (evolves_inferStep σ).resolved_sub
  by_cases hp2 : (simplificationPass σ).2 = true
  · -- the simplification pass resolved at least one new grid cell
    obtain ⟨c, hcG, hcnot, hcin⟩ := hwit hp2
    have hm1 : measure1 (inferStep σ).1 < measure1 σ := by
      unfold measure1
      rw [hh, hw]
      apply Finset.card_lt_card
      rw [Finset.ssubset_iff_of_subset
        (Finset.sdiff_subset_sdiff (Finset.Subset.refl _) hressub)]
      refine ⟨c, Finset.mem_sdiff.mpr ⟨hcG, hcnot⟩, ?_⟩
      rw [Finset.mem_sdiff]
      push_neg
      intro
      rw [hres]
      exact hcin
    have hm2 : measure2 (inferStep σ).1 ≤
        (gridCells σ.height σ.width).powerset.card := by
      unfold measure2
      rw [hh, hw]
      exact Finset.card_le_card Finset.sdiff_subset
    unfold aiMeasure
    rw [hh, hw]
    set A := measure1 (inferStep σ).1 with hA
    set B := measure1 σ with hB
    set P := (gridCells σ.height σ.width).powerset.card with hP
    have hmul : (A + 1) * (P + 1) ≤ B * (P + 1) :=
      Nat.mul_le_mul_right _ hm1
    have hexp : (A + 1) * (P + 1) = A * (P + 1) + (P + 1) := by ring
    set X := A * (P + 1) with hX
    set Y := B * (P + 1) with hY
    omega
  · -- the pass was a no-op; at least one genuinely new sentence was staged
    have hid2 : (simplificationPass σ).1 = σ :=
      hid (Bool.not_eq_true _ ▸ hp2)
    have hstaged : resolutionPass σ.knowledge ≠ [] := by
      intro hempty
      rw [inferStep_flag, hid2, hempty] at hflag
      rw [Bool.eq_false_iff.mpr hp2] at hflag
      simp at hflag
    obtain ⟨t, ht⟩ := List.exists_mem_of_ne_nil _ hstaged
    have htnotmem : t ∉ σ.knowledge := resolutionPass_not_mem _ t ht
    have hsound_t := sound_resolution_staged h ht
    have hstate : (inferStep σ).1 =
        { σ with knowledge := σ.knowledge ++ resolutionPass σ.knowledge } := by
      rw [inferStep_state, hid2]
    have hcells_not : t.cells ∉ kbCellSets σ := by
      intro hmem
      rw [kbCellSets, List.mem_toFinset, List.mem_map] at hmem
      obtain ⟨s, hs, hcs⟩ := hmem
      have hcount : s.count = t.count := by
        rw [h.sent_true s hs, hsound_t.1, hcs]
      have hst : s = t := by
        cases s
        cases t
        simp only at hcs hcount
        rw [hcs, hcount]
      exact htnotmem (hst ▸ hs)
    have hm1 : measure1 (inferStep σ).1 = measure1 σ := by
      rw [hstate]
      rfl
    have hcells_in : t.cells ∈ kbCellSets (inferStep σ).1 := by
      rw [hstate, kbCellSets, List.mem_toFinset, List.mem_map]
      exact ⟨t, List.mem_append.mpr (Or.inr ht), rfl⟩
    have hsets_sub : kbCellSets σ ⊆ kbCellSets (inferStep σ).1 := by
      rw [hstate]
      intro x hx
      rw [kbCellSets, List.mem_toFinset, List.mem_map] at hx ⊢
      obtain ⟨s, hs, rfl⟩ := hx
      exact ⟨s, List.mem_append.mpr (Or.inl hs), rfl⟩
    have hm2 : measure2 (inferStep σ).1 < measure2 σ := by
      unfold measure2
      rw [hh, hw]
      apply Finset.card_lt_card
      rw [Finset.ssubset_iff_of_subset
        (Finset.sdiff_subset_sdiff (Finset.Subset.refl _) hsets_sub)]
      refine ⟨t.cells, Finset.mem_sdiff.mpr ⟨?_, hcells_not⟩, ?_⟩
      · exact Finset.mem_powerset.mpr hsound_t.2.1
      · rw [Finset.mem_sdiff]
        push_neg
        intro
        exact hcells_in
    unfold aiMeasure
    rw [hh, hw, hm1]
    omega

theorem inferLoop_of_measure (M : Finset Cell) :
    ∀ n (σ : AIState), Sound M σ → aiMeasure σ < n →
      ∃ σf, inferLoop n σ = some σf ∧ Sound M σf := by
  intro n
  induction n with
  | zero =>
    intro σ _ hm
    omega
  | succ n ih =>
    intro σ hS hm
    simp only [inferLoop]
    by_cases hc : (inferStep σ).2
    · rw [if_pos hc]
      have hdec := inferStep_measure_lt M σ hS hc
      exact ih (inferStep σ).1 (sound_inferStep M σ hS) (by omega)
    · rw [if_neg hc]
      exact ⟨(inferStep σ).1, rfl, sound_inferStep M σ hS⟩

theorem sound_observe_base {M : Finset Cell} {σ : AIState} {cell : Cell}
    (h : Sound M σ) (hc : cell ∉ M) :
    Sound M (AIState.mark_safe
      { σ with moves_made := insert cell σ.moves_made } cell) := by
  have hbase : Sound M { σ with moves_made := ∅ } :=
    ⟨h.sent_true, h.sent_grid, h.sent_fresh, h.mines_sub, h.safes_disj,
      by simp⟩
  have hmark := sound_mark_safe hbase hc
  exact ⟨hmark.sent_true, hmark.sent_grid, hmark.sent_fresh,
    hmark.mines_sub, hmark.safes_disj, by
      show insert cell σ.moves_made ⊆ insert cell σ.safes
      exact Finset.insert_subset_insert _ h.moves_sub⟩

/-- The clue arithmetic of `add_knowledge`: when the clue counts the actual
mines among the neighbours and the state is sound, subtracting the
neighbours already known to be mines yields exactly the number of actual
mines among the unknown neighbours. -/
theorem observe_count_eq {M : Finset Cell} {σ2 : AIState} {nb : List Cell}
    {k : ℤ} (hnd : nb.Nodup) (h2 : Sound M σ2)
    (hk2 : k = ((nb.toFinset ∩ M).card : ℤ)) :
    k - (mineCount σ2 nb : ℤ) =
      (((unknownFilter σ2 nb).toFinset ∩ M).card : ℤ) := by
  have hmc := mineCount_eq_card σ2 nb hnd
  have huf : (unknownFilter σ2 nb).toFinset =
      nb.toFinset.filter
        (fun n => ¬(n ∈ σ2.moves_made ∨ n ∈ σ2.safes) ∧ n ∉ σ2.mines) := by
    ext x
    rw [List.mem_toFinset, mem_unknownFilter, Finset.mem_filter,
      List.mem_toFinset]
  have hpart : nb.toFinset ∩ M =
      (nb.toFinset.filter
        (fun n => ¬(n ∈ σ2.moves_made ∨ n ∈ σ2.safes) ∧ n ∈ σ2.mines)) ∪
      ((nb.toFinset.filter
        (fun n => ¬(n ∈ σ2.moves_made ∨ n ∈ σ2.safes) ∧ n ∉ σ2.mines)) ∩ M)
      := by
    ext x
    simp only [Finset.mem_inter, Finset.mem_union, Finset.mem_filter]
    constructor
    · rintro ⟨hxN, hxM⟩
      have hxs : x ∉ σ2.safes := fun hs => h2.safes_disj x hs hxM
      have hxm : x ∉ σ2.moves_made := fun hm => hxs (h2.moves_sub hm)
      have hskip : ¬(x ∈ σ2.moves_made ∨ x ∈ σ2.safes) := by tauto
      by_cases hmine : x ∈ σ2.mines
      · exact Or.inl ⟨hxN, hskip, hmine⟩
      · exact Or.inr ⟨⟨hxN, hskip, hmine⟩, hxM⟩
    · rintro (⟨hxN, -, hmine⟩ | ⟨⟨hxN, -, -⟩, hxM⟩)
      · exact ⟨hxN, h2.mines_sub hmine⟩
      · exact ⟨hxN, hxM⟩
  have hdisj : Disjoint
      (nb.toFinset.filter
        (fun n => ¬(n ∈ σ2.moves_made ∨ n ∈ σ2.safes) ∧ n ∈ σ2.mines))
      ((nb.toFinset.filter
        (fun n => ¬(n ∈ σ2.moves_made ∨ n ∈ σ2.safes) ∧ n ∉ σ2.mines)) ∩ M)
      := by
    rw [Finset.disjoint_left]
    intro a ha hb
    have h1 := (Finset.mem_filter.mp ha).2.2
    have h2b := (Finset.mem_filter.mp (Finset.mem_inter.mp hb).1).2.2
    exact h2b h1
  have hcard : (nb.toFinset ∩ M).card =
      mineCount σ2 nb + ((unknownFilter σ2 nb).toFinset ∩ M).card := by
    rw [hpart, Finset.card_union_of_disjoint hdisj, hmc, huf]
  omega

theorem sound_preObserve {M : Finset Cell} {σ : AIState} {cell : Cell}
    {k : ℤ} (h : Sound M σ) (hc : cell ∉ M)
    (hk : k = (((neighbors σ.height σ.width cell).toFinset ∩ M).card : ℤ)) :
    Sound M (preObserve σ cell k) := by
  have h2 := sound_observe_base h hc
  simp only [preObserve]
  rw [classifyNeighbors_eq]
  split_ifs with hne
  · refine ⟨?_, ?_, ?_, h2.mines_sub, h2.safes_disj, h2.moves_sub⟩
    · intro s hs
      rcases List.mem_append.mp hs with h1 | hnew
      · exact h2.sent_true s h1
      · obtain rfl := List.mem_singleton.mp hnew
        show k - ((mineCount _ _ : ℕ) : ℤ) = _
        exact observe_count_eq (neighbors_nodup _ _ cell) h2 hk
    · intro s hs
      rcases List.mem_append.mp hs with h1 | hnew
      · exact h2.sent_grid s h1
      · obtain rfl := List.mem_singleton.mp hnew
        intro x hx
        show x ∈ gridCells σ.height σ.width
        have hxnb := ((mem_unknownFilter _ _ x).mp
          (List.mem_toFinset.mp hx)).1
        exact neighbors_mem_grid σ.height σ.width cell x hxnb
    · intro s hs x hx
      rcases List.mem_append.mp hs with h1 | hnew
      · exact h2.sent_fresh s h1 x hx
      · obtain rfl := List.mem_singleton.mp hnew
        have := (mem_unknownFilter _ _ x).mp (List.mem_toFinset.mp hx)
        constructor
        · exact this.2.2
        · intro hxs
          exact this.2.1 (Or.inr hxs)
  · exact h2

def fuelBound (h w : ℕ) : ℕ :=
  ((gridCells h w).card + 1) * ((gridCells h w).powerset.card + 1)

theorem aiMeasure_lt_fuelBound (σ : AIState) :
    aiMeasure σ < fuelBound σ.height σ.width := by
  unfold aiMeasure fuelBound
  have h1 : measure1 σ ≤ (gridCells σ.height σ.width).card :=
    Finset.card_le_card Finset.sdiff_subset
  have h2 : measure2 σ ≤ (gridCells σ.height σ.width).powerset.card :=
    Finset.card_le_card Finset.sdiff_subset
  set G := (gridCells σ.height σ.width).card with hG
  set P := (gridCells σ.height σ.width).powerset.card with hP
  have hm : measure1 σ * (P + 1) ≤ G * (P + 1) :=
    Nat.mul_le_mul_right _ h1
  have hexp : (G + 1) * (P + 1) = G * (P + 1) + (P + 1) := by ring
  set X := measure1 σ * (P + 1) with hX
  set Y := G * (P + 1) with hY
  omega

theorem sound_add_knowledge_total {M : Finset Cell} {σ : AIState}
    {cell : Cell} {k : ℤ} (h : Sound M σ) (hc : cell ∉ M)
    (hk : k = (((neighbors σ.height σ.width cell).toFinset ∩ M).card : ℤ)) :
    ∃ σf, add_knowledge (fuelBound σ.height σ.width) σ cell k = some σf ∧
      Sound M σf := by
  have hpre := sound_preObserve h hc hk
  have hm : aiMeasure (preObserve σ cell k) < fuelBound σ.height σ.width := by
    have := aiMeasure_lt_fuelBound (preObserve σ cell k)
    rw [(evolves_preObserve σ cell k).h_eq,
      (evolves_preObserve σ cell k).w_eq] at this
    exact this
  exact inferLoop_of_measure M _ _ hpre hm

theorem sound_inferLoop {M : Finset Cell} (fuel : ℕ) (σ σf : AIState)
    (h : inferLoop fuel σ = some σf) (hS : Sound M σ) : Sound M σf := by
  induction fuel generalizing σ with
  | zero => exact absurd h (by simp [inferLoop])
  | succ n ih =>
    unfold inferLoop at h
    by_cases hc : (inferStep σ).2
    · rw [if_pos hc] at h
      exact ih _ h (sound_inferStep M σ hS)
    · rw [if_neg hc] at h
      obtain rfl := Option.some_inj.mp h
      exact sound_inferStep M σ hS

theorem sound_add_knowledge {M : Finset Cell} (fuel : ℕ)
    (σ σf : AIState) (cell : Cell) (k : ℤ)
    (h : add_knowledge fuel σ cell k = some σf) (hS : Sound M σ)
    (hc : cell ∉ M)
    (hk : k = (((neighbors σ.height σ.width cell).toFinset ∩ M).card : ℤ)) :
    Sound M σf :=
  sound_inferLoop fuel _ σf h (sound_preObserve hS hc hk)

theorem sound_runObs {M : Finset Cell} (fuel h w : ℕ)
    (obs : List (Cell × ℤ)) :
    ∀ σ σf : AIState, runObs fuel σ obs = some σf → Sound M σ →
      σ.height = h → σ.width = w → Consistent h w M obs → Sound M σf := by
  induction obs with
  | nil =>
    intro σ σf hr hS _ _ _
    obtain rfl := Option.some_inj.mp hr
    exact hS
  | cons p rest ih =>
    obtain ⟨c, k⟩ := p
    intro σ σf hr hS hh hw hcons
    unfold runObs at hr
    cases hak : add_knowledge fuel σ c k with
    | none => rw [hak] at hr; exact absurd hr (by simp)
    | some σ1 =>
      rw [hak] at hr
      have hp := hcons (c, k) (List.mem_cons_self _ rest)
      have hS1 : Sound M σ1 :=
        sound_add_knowledge fuel σ σ1 c k hak hS hp.1
          (by rw [hh, hw]; exact hp.2)
      have hE := evolves_add_knowledge fuel σ σ1 c k hak
      exact ih σ1 σf hr hS1 (hE.h_eq.trans hh) (hE.w_eq.trans hw)
        (fun q hq => hcons q (List.mem_cons_of_mem _ hq))

theorem runObs_total {M : Finset Cell} (h w : ℕ) (obs : List (Cell × ℤ)) :
    ∀ σ : AIState, Sound M σ → σ.height = h → σ.width = w →
      Consistent h w M obs →
      ∃ σf, runObs (fuelBound h w) σ obs = some σf ∧ Sound M σf := by
  induction obs with
  | nil =>
    intro σ hS _ _ _
    exact ⟨σ, rfl, hS⟩
  | cons p rest ih =>
    obtain ⟨c, k⟩ := p
    intro σ hS hh hw hcons
    have hp := hcons (c, k) (List.mem_cons_self _ rest)
    have hk2 : k =
        (((neighbors σ.height σ.width c).toFinset ∩ M).card : ℤ) := by
      rw [hh, hw]
      exact hp.2
    obtain ⟨σ1, hak, hS1⟩ := sound_add_knowledge_total hS hp.1 hk2
    rw [hh, hw] at hak
    have hE := evolves_add_knowledge _ σ σ1 c k hak
    obtain ⟨σf, hrest, hSf⟩ := ih σ1 hS1 (hE.h_eq.trans hh)
      (hE.w_eq.trans hw) (fun q hq => hcons q (List.mem_cons_of_mem _ hq))
    refine ⟨σf, ?_, hSf⟩
    unfold runObs
    rw [hak]
    exact hrest

theorem sound_applyOp {M : Finset Cell} (fuel : ℕ) (σ σf : AIState)
    (op : AgentOp) (h : applyOp fuel σ op = some σf) (hS : Sound M σ)
    (hcons : match op with
      | .obs c k => c ∉ M ∧
          k = (((neighbors σ.height σ.width c).toFinset ∩ M).card : ℤ)
      | .mine c => c ∈ M
      | .safe c => c ∉ M) : Sound M σf := by
  cases op with
  | obs c k => exact sound_add_knowledge fuel σ σf c k h hS hcons.1 hcons.2
  | mine c =>
    obtain rfl := Option.some_inj.mp h
    exact sound_mark_mine hS hcons
  | safe c =>
    obtain rfl := Option.some_inj.mp h
    exact sound_mark_safe hS hcons

theorem sound_runOps {M : Finset Cell} (fuel h w : ℕ)
    (ops : List AgentOp) :
    ∀ σ σf : AIState, runOps fuel σ ops = some σf → Sound M σ →
      σ.height = h → σ.width = w → OpsConsistent h w M ops →
      Sound M σf := by
  induction ops with
  | nil =>
    intro σ σf hr hS _ _ _
    obtain rfl := Option.some_inj.mp hr
    exact hS
  | cons op rest ih =>
    intro σ σf hr hS hh hw hcons
    unfold runOps at hr
    cases hop : applyOp fuel σ op with
    | none => rw [hop] at hr; exact absurd hr (by simp)
    | some σ1 =>
      rw [hop] at hr
      have hcop := hcons op (List.mem_cons_self _ rest)
      have hS1 : Sound M σ1 := by
        apply sound_applyOp fuel σ σ1 op hop hS
        cases op with
        | obs c k => exact ⟨hcop.1, by rw [hh, hw]; exact hcop.2⟩
        | mine c => exact hcop
        | safe c => exact hcop
      have hE := evolves_applyOp fuel σ σ1 op hop
      exact ih σ1 σf hr hS1 (hE.h_eq.trans hh) (hE.w_eq.trans hw)
        (fun q hq => hcons q (List.mem_cons_of_mem _ hq))

/- ---------------------------------------------------------------------
   Divergence of the fixpoint loop on inconsistent clues.  On a 2 x 4 grid
   the observations (0,0)->10, (1,0)->20, (0,2)->105, (0,2)->205 leave the
   agent with sentences over the cell sets R = {(0,1),(1,1)},
   T = {(0,3),(1,2),(1,3)} and S = R union T whose counts ping-pong: every
   pass derives a sentence count not seen before, so `while changed` never
   exits.
   --------------------------------------------------------------------- -/

def divR : Finset Cell := {((0:ℤ), (1:ℤ)), ((1:ℤ), (1:ℤ))}

def divT : Finset Cell := {((0:ℤ), (3:ℤ)), ((1:ℤ), (2:ℤ)), ((1:ℤ), (3:ℤ))}

def divS : Finset Cell :=
  {((0:ℤ), (1:ℤ)), ((0:ℤ), (3:ℤ)), ((1:ℤ), (1:ℤ)), ((1:ℤ), (2:ℤ)),
    ((1:ℤ), (3:ℤ))}

/-- The shape of the diverging knowledge base: sentences only over `divR`,
`divT`, `divS`, with counts in residue classes that never trigger a
simplification, the `divS` sentences fixed at counts 105 and 205, and at
least one sentence over `divR` and over `divT`. -/
def DivKb (kb : List Sentence) : Prop :=
  (∀ s ∈ kb,
    (s.cells = divR ∧ (s.count % 100 = 10 ∨ s.count % 100 = 20)) ∨
    (s.cells = divT ∧ (s.count % 100 = 85 ∨ s.count % 100 = 95)) ∨
    (s.cells = divS ∧ (s.count = 105 ∨ s.count = 205))) ∧
  (∃ s ∈ kb, s.cells = divR) ∧ (∃ s ∈ kb, s.cells = divT) ∧
  (⟨divS, 105⟩ : Sentence) ∈ kb ∧ (⟨divS, 205⟩ : Sentence) ∈ kb

instance : DecidablePred DivKb := fun kb => by
  unfold DivKb
  infer_instance

theorem divKb_no_trigger {kb : List Sentence} (h : DivKb kb) :
    ∀ s ∈ kb, s.known_mines = ∅ ∧ s.known_safes = ∅ := by
  intro s hs
  have hcases := h.1 s hs
  constructor
  · unfold Sentence.known_mines
    rw [if_neg]
    rcases hcases with ⟨hc, hm⟩ | ⟨hc, hm⟩ | ⟨hc, hm⟩ <;> rw [hc]
    · have : divR.card = 2 := by decide
      rw [this]
      omega
    · have : divT.card = 3 := by decide
      rw [this]
      omega
    · have : divS.card = 5 := by decide
      rw [this]
      omega
  · unfold Sentence.known_safes
    rw [if_neg]
    rcases hcases with ⟨hc, hm⟩ | ⟨hc, hm⟩ | ⟨hc, hm⟩ <;> omega

theorem simplifyAt_id (σ : AIState) (i : ℕ)
    (h : ∀ s ∈ σ.knowledge, s.known_mines = ∅ ∧ s.known_safes = ∅) :
    simplifyAt (σ, false) i = (σ, false) := by
  have hm : (σ.knowledge.getD i defaultSentence).known_mines = ∅ := by
    by_cases hi : i < σ.knowledge.length
    · exact (h _ (getD_mem_of_lt _ i hi)).1
    · rw [getD_default_of_le _ i (Nat.le_of_not_lt hi)]
      exact default_known_mines
  have hs : (σ.knowledge.getD i defaultSentence).known_safes = ∅ := by
    by_cases hi : i < σ.knowledge.length
    · exact (h _ (getD_mem_of_lt _ i hi)).2
    · rw [getD_default_of_le _ i (Nat.le_of_not_lt hi)]
      exact default_known_safes
  simp only [simplifyAt]
  split_ifs with h1 h2 h3
  · exact absurd hm h1
  · exact absurd hm h1
  · exact absurd hs h3
  · rfl

theorem simplificationPass_id (σ : AIState)
    (h : ∀ s ∈ σ.knowledge, s.known_mines = ∅ ∧ s.known_safes = ∅) :
    simplificationPass σ = (σ, false) := by
  unfold simplificationPass
  generalize List.range σ.knowledge.length = l
  induction l with
  | nil => rfl
  | cons i l ih =>
    rw [List.foldl_cons, simplifyAt_id σ i h, ih]

theorem divR_subset_divS : divR ⊆ divS := by decide

theorem divT_subset_divS : divT ⊆ divS := by decide

theorem divS_sdiff_divR : divS \ divR = divT := by decide

theorem divS_sdiff_divT : divS \ divT = divR := by decide

theorem not_divR_subset_divT : ¬ divR ⊆ divT := by decide

theorem not_divT_subset_divR : ¬ divT ⊆ divR := by decide

theorem not_divS_subset_divR : ¬ divS ⊆ divR := by decide

theorem not_divS_subset_divT : ¬ divS ⊆ divT := by decide

theorem divR_card_pos : 0 < divR.card := by decide

theorem divS_card_pos : 0 < divS.card := by decide

theorem divT_card_pos : 0 < divT.card := by decide

theorem divR_ne_divS : divR ≠ divS := by decide

theorem divT_ne_divS : divT ≠ divS := by decide

theorem divT_ne_empty : divT ≠ ∅ := by decide

theorem divR_ne_empty : divR ≠ ∅ := by decide

/-- Every sentence staged by the resolution pass from a diverging knowledge
base again has the diverging shape. -/
theorem divKb_staged_shape {kb : List Sentence} (h : DivKb kb)
    {t : Sentence} (ht : t ∈ resolutionPass kb) :
    (t.cells = divR ∧ (t.count % 100 = 10 ∨ t.count % 100 = 20)) ∨
    (t.cells = divT ∧ (t.count % 100 = 85 ∨ t.count % 100 = 95)) ∨
    (t.cells = divS ∧ (t.count = 105 ∨ t.count = 205)) := by
  obtain ⟨s1, hs1, s2, hs2, hsub, hne, hc1, hc2, hncne, -, rfl⟩ :=
    (mem_resolutionPass _ t).mp ht
  rcases h.1 s1 hs1 with ⟨e1, m1⟩ | ⟨e1, m1⟩ | ⟨e1, m1⟩ <;>
    rcases h.1 s2 hs2 with ⟨e2, m2⟩ | ⟨e2, m2⟩ | ⟨e2, m2⟩
  · rw [e1, e2] at hncne
    simp at hncne
  · rw [e1, e2] at hsub
    exact absurd hsub not_divR_subset_divT
  · refine Or.inr (Or.inl ⟨?_, ?_⟩)
    · show s2.cells \ s1.cells = divT
      rw [e1, e2]
      exact divS_sdiff_divR
    · show (s2.count - s1.count) % 100 = 85 ∨ (s2.count - s1.count) % 100 = 95
      omega
  · rw [e1, e2] at hsub
    exact absurd hsub not_divT_subset_divR
  · rw [e1, e2] at hncne
    simp at hncne
  · refine Or.inl ⟨?_, ?_⟩
    · show s2.cells \ s1.cells = divR
      rw [e1, e2]
      exact divS_sdiff_divT
    · show (s2.count - s1.count) % 100 = 10 ∨ (s2.count - s1.count) % 100 = 20
      omega
  · rw [e1, e2] at hsub
    exact absurd hsub not_divS_subset_divR
  · rw [e1, e2] at hsub
    exact absurd hsub not_divS_subset_divT
  · rw [e1, e2] at hncne
    simp at hncne

def rcountList (kb : List Sentence) : List ℤ :=
  kb.filterMap (fun s => if s.cells = divR then some s.count else none)

def tcountList (kb : List Sentence) : List ℤ :=
  kb.filterMap (fun s => if s.cells = divT then some s.count else none)

theorem mem_rcountList (kb : List Sentence) (x : ℤ) :
    x ∈ rcountList kb ↔ ∃ s ∈ kb, s.cells = divR ∧ s.count = x := by
  rw [rcountList, List.mem_filterMap]
  constructor
  · rintro ⟨s, hs, hsx⟩
    by_cases hc : s.cells = divR
    · rw [if_pos hc] at hsx
      exact ⟨s, hs, hc, Option.some_inj.mp hsx⟩
    · rw [if_neg hc] at hsx
      exact absurd hsx (by simp)
  · rintro ⟨s, hs, hc, rfl⟩
    exact ⟨s, hs, by rw [if_pos hc]⟩

theorem mem_tcountList (kb : List Sentence) (x : ℤ) :
    x ∈ tcountList kb ↔ ∃ s ∈ kb, s.cells = divT ∧ s.count = x := by
  rw [tcountList, List.mem_filterMap]
  constructor
  · rintro ⟨s, hs, hsx⟩
    by_cases hc : s.cells = divT
    · rw [if_pos hc] at hsx
      exact ⟨s, hs, hc, Option.some_inj.mp hsx⟩
    · rw [if_neg hc] at hsx
      exact absurd hsx (by simp)
  · rintro ⟨s, hs, hc, rfl⟩
    exact ⟨s, hs, by rw [if_pos hc]⟩

/-- If the resolution pass of a diverging knowledge base stages nothing,
then every forced candidate is already present, which pins the count sets
into an impossible inequality.  Hence the pass always stages something. -/
theorem divKb_resolution_ne_nil {kb : List Sentence} (h : DivKb kb) :
    resolutionPass kb ≠ [] := by
  intro hnil
  have hall : ∀ s1 ∈ kb, ∀ s2 ∈ kb, resolveCandidate kb s1 s2 = none := by
    intro s1 hs1 s2 hs2
    cases hrc : resolveCandidate kb s1 s2 with
    | none => rfl
    | some t =>
      exfalso
      have htm : t ∈ resolutionPass kb := by
        unfold resolutionPass
        rw [List.mem_flatMap]
        exact ⟨s1, hs1, List.mem_filterMap.mpr ⟨s2, hs2, hrc⟩⟩
      rw [hnil] at htm
      exact absurd htm (List.not_mem_nil t)
  obtain ⟨hshape, hexR, hexT, h105, h205⟩ := h
  have hforceT : ∀ s1 ∈ kb, s1.cells = divR →
      (⟨divT, 105 - s1.count⟩ : Sentence) ∈ kb := by
    intro s1 hs1 hc
    by_contra hnotmem
    have hsome : resolveCandidate kb s1 ⟨divS, 105⟩ =
        some ⟨(⟨divS, (105:ℤ)⟩ : Sentence).cells \ s1.cells,
          (⟨divS, (105:ℤ)⟩ : Sentence).count - s1.count⟩ := by
      apply (resolveCandidate_eq_some kb s1 ⟨divS, 105⟩ _).mpr
      refine ⟨?_, ?_, ?_, ?_, ?_, ?_, rfl⟩
      · show s1.cells ⊆ divS
        rw [hc]
        exact divR_subset_divS
      · intro heq
        apply divR_ne_divS
        rw [← hc, heq]
      · rw [hc]
        exact divR_card_pos
      · exact divS_card_pos
      · show divS \ s1.cells ≠ ∅
        rw [hc, divS_sdiff_divR]
        exact divT_ne_empty
      · show (⟨divS \ s1.cells, 105 - s1.count⟩ : Sentence) ∉ kb
        rw [hc, divS_sdiff_divR]
        exact hnotmem
    rw [hall s1 hs1 ⟨divS, 105⟩ h105] at hsome
    exact absurd hsome (by simp)
  have hforceR : ∀ s1 ∈ kb, s1.cells = divT →
      (⟨divR, 205 - s1.count⟩ : Sentence) ∈ kb := by
    intro s1 hs1 hc
    by_contra hnotmem
    have hsome : resolveCandidate kb s1 ⟨divS, 205⟩ =
        some ⟨(⟨divS, (205:ℤ)⟩ : Sentence).cells \ s1.cells,
          (⟨divS, (205:ℤ)⟩ : Sentence).count - s1.count⟩ := by
      apply (resolveCandidate_eq_some kb s1 ⟨divS, 205⟩ _).mpr
      refine ⟨?_, ?_, ?_, ?_, ?_, ?_, rfl⟩
      · show s1.cells ⊆ divS
        rw [hc]
        exact divT_subset_divS
      · intro heq
        apply divT_ne_divS
        rw [← hc, heq]
      · rw [hc]
        exact divT_card_pos
      · exact divS_card_pos
      · show divS \ s1.cells ≠ ∅
        rw [hc, divS_sdiff_divT]
        exact divR_ne_empty
      · show (⟨divS \ s1.cells, 205 - s1.count⟩ : Sentence) ∉ kb
        rw [hc, divS_sdiff_divT]
        exact hnotmem
    rw [hall s1 hs1 ⟨divS, 205⟩ h205] at hsome
    exact absurd hsome (by simp)
  obtain ⟨sR, hsR, hcR⟩ := hexR
  obtain ⟨sT, hsT, hcT⟩ := hexT
  have hrne : (rcountList kb).toFinset.Nonempty :=
    ⟨sR.count, List.mem_toFinset.mpr
      ((mem_rcountList kb _).mpr ⟨sR, hsR, hcR, rfl⟩)⟩
  have htne : (tcountList kb).toFinset.Nonempty :=
    ⟨sT.count, List.mem_toFinset.mpr
      ((mem_tcountList kb _).mpr ⟨sT, hsT, hcT, rfl⟩)⟩
  obtain ⟨sRM, hsRM, hcRM, hcntRM⟩ := (mem_rcountList kb _).mp
    (List.mem_toFinset.mp ((rcountList kb).toFinset.max'_mem hrne))
  obtain ⟨sTm, hsTm, hcTm, hcntTm⟩ := (mem_tcountList kb _).mp
    (List.mem_toFinset.mp ((tcountList kb).toFinset.min'_mem htne))
  have h1 := hforceT sRM hsRM hcRM
  rw [hcntRM] at h1
  have hle1 : (tcountList kb).toFinset.min' htne ≤
      105 - (rcountList kb).toFinset.max' hrne :=
    Finset.min'_le _ _ (List.mem_toFinset.mpr
      ((mem_tcountList kb _).mpr ⟨_, h1, rfl, rfl⟩))
  have h2 := hforceR sTm hsTm hcTm
  rw [hcntTm] at h2
  have hle2 : 205 - (tcountList kb).toFinset.min' htne ≤
      (rcountList kb).toFinset.max' hrne :=
    Finset.le_max' _ _ (List.mem_toFinset.mpr
      ((mem_rcountList kb _).mpr ⟨_, h2, rfl, rfl⟩))
  omega

theorem divKb_inferStep {σ : AIState} (h : DivKb σ.knowledge) :
    DivKb (inferStep σ).1.knowledge ∧ (inferStep σ).2 = true := by
  have hid : simplificationPass σ = (σ, false) :=
    simplificationPass_id σ (divKb_no_trigger h)
  have hne : resolutionPass σ.knowledge ≠ [] := divKb_resolution_ne_nil h
  constructor
  · have hkb : (inferStep σ).1.knowledge =
        σ.knowledge ++ resolutionPass σ.knowledge := by
      rw [inferStep_state, hid]
    rw [hkb]
    obtain ⟨hshape, ⟨sR, hsR, hcR⟩, ⟨sT, hsT, hcT⟩, h105, h205⟩ := h
    refine ⟨?_, ⟨sR, List.mem_append.mpr (Or.inl hsR), hcR⟩,
      ⟨sT, List.mem_append.mpr (Or.inl hsT), hcT⟩,
      List.mem_append.mpr (Or.inl h105),
      List.mem_append.mpr (Or.inl h205)⟩
    intro s hs
    rcases List.mem_append.mp hs with h1 | h2
    · exact hshape s h1
    · exact divKb_staged_shape ⟨hshape, ⟨sR, hsR, hcR⟩, ⟨sT, hsT, hcT⟩,
        h105, h205⟩ h2
  · rw [inferStep_flag, hid]
    simp only [Bool.false_or, Bool.not_eq_true']
    rw [← Bool.not_eq_true, List.isEmpty_iff]
    exact hne

theorem divKb_inferLoop (fuel : ℕ) :
    ∀ σ : AIState, DivKb σ.knowledge → inferLoop fuel σ = none := by
  induction fuel with
  | zero =>
    intro σ _
    rfl
  | succ n ih =>
    intro σ h
    obtain ⟨hkb, hflag⟩ := divKb_inferStep h
    simp only [inferLoop]
    rw [if_pos hflag]
    exact ih _ hkb

/-- The concrete agent state after the three convergent observations
`(0,0) -> 10`, `(1,0) -> 20`, `(0,2) -> 105` on an empty 2 x 4 agent. -/
def divState3 : AIState :=
  ⟨2, 4,
    {((0:ℤ), (0:ℤ)), ((1:ℤ), (0:ℤ)), ((0:ℤ), (2:ℤ))},
    ∅,
    {((0:ℤ), (0:ℤ)), ((1:ℤ), (0:ℤ)), ((0:ℤ), (2:ℤ))},
    [⟨divR, 10⟩, ⟨divR, 20⟩, ⟨divS, 105⟩, ⟨divT, 95⟩, ⟨divT, 85⟩]⟩

/- ---------------------------------------------------------------------
   Inertness of empty sentences in the resolution pass.
   --------------------------------------------------------------------- -/

theorem resolveCandidate_empty_left (kb : List Sentence) (e s2 : Sentence)
    (he : e.cells = ∅) : resolveCandidate kb e s2 = none := by
  simp only [resolveCandidate]
  rw [if_neg]
  rintro ⟨-, -, hcard, -⟩
  rw [he] at hcard
  simp at hcard

theorem resolveCandidate_empty_right (kb : List Sentence) (s1 e : Sentence)
    (he : e.cells = ∅) : resolveCandidate kb s1 e = none := by
  simp only [resolveCandidate]
  rw [if_neg]
  rintro ⟨-, -, -, hcard⟩
  rw [he] at hcard
  simp at hcard

theorem resolveCandidate_congr (kb1 kb2 : List Sentence) (e s1 s2 : Sentence)
    (he : e.cells = ∅) :
    resolveCandidate (kb1 ++ e :: kb2) s1 s2 =
      resolveCandidate (kb1 ++ kb2) s1 s2 := by
  simp only [resolveCandidate]
  by_cases hg : s1.cells ⊆ s2.cells ∧ s1 ≠ s2 ∧
      0 < s1.cells.card ∧ 0 < s2.cells.card
  · rw [if_pos hg, if_pos hg]
    by_cases hnc : s2.cells \ s1.cells ≠ ∅
    · rw [if_pos hnc, if_pos hnc]
      have hiff :
          ((⟨s2.cells \ s1.cells, s2.count - s1.count⟩ : Sentence) ∈
            kb1 ++ e :: kb2) ↔
          ((⟨s2.cells \ s1.cells, s2.count - s1.count⟩ : Sentence) ∈
            kb1 ++ kb2) := by
        constructor
        · intro hm
          rcases List.mem_append.mp hm with h1 | h2
          · exact List.mem_append.mpr (Or.inl h1)
          · rcases List.mem_cons.mp h2 with heq | h3
            · exfalso
              apply hnc
              have := congrArg Sentence.cells heq
              simp only at this
              rw [this, he]
            · exact List.mem_append.mpr (Or.inr h3)
        · intro hm
          rcases List.mem_append.mp hm with h1 | h2
          · exact List.mem_append.mpr (Or.inl h1)
          · exact List.mem_append.mpr (Or.inr (List.mem_cons_of_mem e h2))
      by_cases hmem :
          (⟨s2.cells \ s1.cells, s2.count - s1.count⟩ : Sentence) ∉
            kb1 ++ kb2
      · rw [if_pos hmem, if_pos (fun hm => hmem (hiff.mp hm))]
      · rw [not_not] at hmem
        rw [if_neg (not_not_intro hmem),
          if_neg (not_not_intro (hiff.mpr hmem))]
    · rw [if_neg hnc, if_neg hnc]
  · rw [if_neg hg, if_neg hg]

theorem filterMap_none_all {α β : Type} (l : List α) (f : α → Option β)
    (h : ∀ a ∈ l, f a = none) : l.filterMap f = [] := by
  induction l with
  | nil => rfl
  | cons a l ih =>
    rw [List.filterMap_cons, h a (List.mem_cons_self a l)]
    exact ih (fun x hx => h x (List.mem_cons_of_mem a hx))

/-- An empty sentence is invisible to the resolution pass: removing it from
the knowledge base changes neither the candidates derived nor the duplicate
check. -/
theorem resolutionPass_ignores_empty (kb1 kb2 : List Sentence)
    (e : Sentence) (he : e.cells = ∅) :
    resolutionPass (kb1 ++ e :: kb2) = resolutionPass (kb1 ++ kb2) := by
  unfold resolutionPass
  have hfc : resolveCandidate (kb1 ++ e :: kb2) =
      resolveCandidate (kb1 ++ kb2) :=
    funext fun s1 => funext fun s2 => resolveCandidate_congr kb1 kb2 e s1 s2 he
  rw [hfc]
  have hinner : ∀ s1 : Sentence,
      (kb1 ++ e :: kb2).filterMap (resolveCandidate (kb1 ++ kb2) s1) =
        (kb1 ++ kb2).filterMap (resolveCandidate (kb1 ++ kb2) s1) := by
    intro s1
    rw [List.filterMap_append, List.filterMap_append, List.filterMap_cons,
      resolveCandidate_empty_right _ s1 e he]
  have houter :
      (fun s1 => (kb1 ++ e :: kb2).filterMap
        (resolveCandidate (kb1 ++ kb2) s1)) =
      (fun s1 => (kb1 ++ kb2).filterMap
        (resolveCandidate (kb1 ++ kb2) s1)) := funext hinner
  rw [houter, List.flatMap_append, List.flatMap_append, List.flatMap_cons,
    filterMap_none_all _ _
      (fun s2 _ => resolveCandidate_empty_left (kb1 ++ kb2) e s2 he)]
  simp

/- ---------------------------------------------------------------------
   Claim theorems.
   --------------------------------------------------------------------- -/

theorem runObs_cons (fuel : ℕ) (σ σ1 : AIState) (c : Cell) (k : ℤ)
    (rest : List (Cell × ℤ)) (h : add_knowledge fuel σ c k = some σ1) :
    runObs fuel σ ((c, k) :: rest) = runObs fuel σ1 rest := by
  simp only [runObs, h]

/-- C1: for every ordered pair of value-distinct, non-empty sentences
`(s1, s2)` in the knowledge base with `s1.cells ⊆ s2.cells`, the resolution
pass derives exactly the candidate with cells `s2.cells \ s1.cells` and
count `s2.count - s1.count` (staged when non-empty and new); in particular
from `{A,B} = 1` and `{A,B,C} = 2` it derives exactly `{C} = 1`. -/
theorem c1_resolution_derives :
    (∀ (kb : List Sentence) (t : Sentence),
      t ∈ resolutionPass kb ↔
        ∃ s1 ∈ kb, ∃ s2 ∈ kb,
          s1.cells ⊆ s2.cells ∧ s1 ≠ s2 ∧
          0 < s1.cells.card ∧ 0 < s2.cells.card ∧
          s2.cells \ s1.cells ≠ ∅ ∧
          (⟨s2.cells \ s1.cells, s2.count - s1.count⟩ : Sentence) ∉ kb ∧
          t = ⟨s2.cells \ s1.cells, s2.count - s1.count⟩) ∧
    resolutionPass
        [⟨{((0:ℤ),(0:ℤ)), ((0:ℤ),(1:ℤ))}, 1⟩,
          ⟨{((0:ℤ),(0:ℤ)), ((0:ℤ),(1:ℤ)), ((0:ℤ),(2:ℤ))}, 2⟩] =
      [⟨{((0:ℤ),(2:ℤ))}, 1⟩] :=
  ⟨mem_resolutionPass, by decide⟩

/-- C2: for every grid size and every observation sequence consistent with
some mine assignment, every `add_knowledge` call terminates: there is a
fuel under which the whole run completes, i.e. each call's `while changed`
loop reaches a pass with no change after finitely many iterations. -/
theorem c2_termination (h w : ℕ) (M : Finset Cell) (obs : List (Cell × ℤ))
    (hcons : Consistent h w M obs) :
    ∃ fuel σf, runObs fuel (initState h w) obs = some σf := by
  obtain ⟨σf, hrun, -⟩ := runObs_total h w obs (initState h w)
    (sound_initState M h w) rfl rfl hcons
  exact ⟨fuelBound h w, σf, hrun⟩

theorem c2_termination_witness :
    Consistent 2 2 {((1:ℤ),(1:ℤ))} [(((0:ℤ),(0:ℤ)), 1)] ∧
    ∃ fuel σf,
      runObs fuel (initState 2 2) [(((0:ℤ),(0:ℤ)), 1)] = some σf :=
  ⟨by decide, c2_termination 2 2 {((1:ℤ),(1:ℤ))} [(((0:ℤ),(0:ℤ)), 1)]
    (by decide)⟩

/-- The state after observing cell `(0,0)` with clue 1 on an empty 2 x 2
agent (consistent with the single mine `(1,1)`). -/
def obsState1 : AIState :=
  ⟨2, 2, {((0:ℤ),(0:ℤ))}, ∅, {((0:ℤ),(0:ℤ))},
    [⟨{((0:ℤ),(1:ℤ)), ((1:ℤ),(0:ℤ)), ((1:ℤ),(1:ℤ))}, 1⟩]⟩

/-- C3: after any consistent sequence of `add_knowledge` calls, every
sentence in the knowledge base satisfies `0 <= count <= |cells|` (the
engine's mutations preserve this bound because every sentence stays true of
the actual mine assignment). -/
theorem c3_count_invariant (h w fuel : ℕ) (M : Finset Cell)
    (obs : List (Cell × ℤ)) (σ : AIState)
    (hcons : Consistent h w M obs)
    (hrun : runObs fuel (initState h w) obs = some σ) :
    ∀ s ∈ σ.knowledge, 0 ≤ s.count ∧ s.count ≤ (s.cells.card : ℤ) := by
  have hS : Sound M σ := sound_runObs fuel h w obs _ σ hrun
    (sound_initState M h w) rfl rfl hcons
  intro s hs
  have ht := hS.sent_true s hs
  constructor
  · rw [ht]
    exact_mod_cast Nat.zero_le _
  · rw [ht]
    exact_mod_cast Finset.card_le_card Finset.inter_subset_left

theorem c3_count_invariant_witness :
    0 ≤ (⟨{((0:ℤ),(1:ℤ)), ((1:ℤ),(0:ℤ)), ((1:ℤ),(1:ℤ))}, 1⟩ :
      Sentence).count ∧
    (⟨{((0:ℤ),(1:ℤ)), ((1:ℤ),(0:ℤ)), ((1:ℤ),(1:ℤ))}, 1⟩ :
      Sentence).count ≤
      ((⟨{((0:ℤ),(1:ℤ)), ((1:ℤ),(0:ℤ)), ((1:ℤ),(1:ℤ))}, 1⟩ :
        Sentence).cells.card : ℤ) :=
  c3_count_invariant 2 2 10 {((1:ℤ),(1:ℤ))} [(((0:ℤ),(0:ℤ)), 1)] obsState1
    (by decide) (by decide) _ (by decide)

/-- C4: in every state reachable by a consistent sequence of
`add_knowledge` calls, the known-mine set and the known-safe set are
disjoint. -/
theorem c4_disjoint (h w fuel : ℕ) (M : Finset Cell)
    (obs : List (Cell × ℤ)) (σ : AIState)
    (hcons : Consistent h w M obs)
    (hrun : runObs fuel (initState h w) obs = some σ) :
    σ.mines ∩ σ.safes = ∅ := by
  have hS : Sound M σ := sound_runObs fuel h w obs _ σ hrun
    (sound_initState M h w) rfl rfl hcons
  rw [Finset.eq_empty_iff_forall_not_mem]
  intro c hc
  have hm := (Finset.mem_inter.mp hc).1
  have hs := (Finset.mem_inter.mp hc).2
  exact hS.safes_disj c hs (hS.mines_sub hm)

theorem c4_disjoint_witness : obsState1.mines ∩ obsState1.safes = ∅ :=
  c4_disjoint 2 2 10 {((1:ℤ),(1:ℤ))} [(((0:ℤ),(0:ℤ)), 1)] obsState1
    (by decide) (by decide)

/-- The state after observing `(0,0)` with clue 1 on an empty 2 x 2 agent,
then observing the same cell with the same clue again: the same sentence is
appended a second time with no duplicate check. -/
def dupState1 : AIState :=
  ⟨2, 2, {((0:ℤ),(0:ℤ))}, ∅, {((0:ℤ),(0:ℤ))},
    [⟨{((0:ℤ),(1:ℤ)), ((1:ℤ),(0:ℤ)), ((1:ℤ),(1:ℤ))}, 1⟩]⟩

def dupState2 : AIState :=
  ⟨2, 2, {((0:ℤ),(0:ℤ))}, ∅, {((0:ℤ),(0:ℤ))},
    [⟨{((0:ℤ),(1:ℤ)), ((1:ℤ),(0:ℤ)), ((1:ℤ),(1:ℤ))}, 1⟩,
      ⟨{((0:ℤ),(1:ℤ)), ((1:ℤ),(0:ℤ)), ((1:ℤ),(1:ℤ))}, 1⟩]⟩

/-- C5 counterexample: observing the same cell with the same clue twice
(which is even consistent with an actual board) leaves two value-equal
sentences in the knowledge base: the duplicate check only guards sentences
staged by the resolution pass, not observation sentences. -/
theorem c5_counterexample :
    runObs 10 (initState 2 2)
        [(((0:ℤ),(0:ℤ)), 1), (((0:ℤ),(0:ℤ)), 1)] = some dupState2 ∧
    dupState2.knowledge.length = 2 ∧
    dupState2.knowledge.getD 0 defaultSentence =
      dupState2.knowledge.getD 1 defaultSentence := by
  refine ⟨?_, by decide, by decide⟩
  rw [runObs_cons 10 _ dupState1 _ _ _ (by decide),
    runObs_cons 10 _ dupState2 _ _ _ (by decide)]
  rfl

/-- C5 amended: duplicate suppression holds exactly for the resolution
pass: every sentence it stages is absent, by value equality, from the
knowledge base it was derived from.  Sentences appended by observations are
not checked, so the knowledge base can contain two equal sentences. -/
theorem c5_amended (kb : List Sentence) (t : Sentence)
    (ht : t ∈ resolutionPass kb) : t ∉ kb :=
  resolutionPass_not_mem kb t ht

theorem c5_amended_witness :
    (⟨{((0:ℤ),(2:ℤ))}, 1⟩ : Sentence) ∉
      [(⟨{((0:ℤ),(0:ℤ)), ((0:ℤ),(1:ℤ))}, 1⟩ : Sentence),
        ⟨{((0:ℤ),(0:ℤ)), ((0:ℤ),(1:ℤ)), ((0:ℤ),(2:ℤ))}, 2⟩] :=
  c5_amended _ _ (by decide)

theorem mem_validMoves (σ : AIState) (c : Cell) :
    c ∈ validMoves σ ↔
      ∃ i j : ℕ, i < σ.height ∧ j < σ.width ∧ c = ((i:ℤ), (j:ℤ)) ∧
        c ∉ σ.moves_made ∧ c ∉ σ.mines := by
  constructor
  · intro hc
    obtain ⟨i, hi, hmem⟩ := List.mem_flatMap.mp hc
    obtain ⟨j, hj, hfj⟩ := List.mem_filterMap.mp hmem
    rw [List.mem_range] at hi hj
    by_cases hcnd : (((i:ℤ),(j:ℤ)) : Cell) ∉ σ.moves_made ∧
        (((i:ℤ),(j:ℤ)) : Cell) ∉ σ.mines
    · rw [if_pos hcnd] at hfj
      obtain rfl := Option.some_inj.mp hfj
      exact ⟨i, j, hi, hj, rfl, hcnd.1, hcnd.2⟩
    · rw [if_neg hcnd] at hfj
      exact absurd hfj (by simp)
  · rintro ⟨i, j, hi, hj, rfl, h1, h2⟩
    apply List.mem_flatMap.mpr
    refine ⟨i, List.mem_range.mpr hi, ?_⟩
    apply List.mem_filterMap.mpr
    refine ⟨j, List.mem_range.mpr hj, ?_⟩
    rw [if_pos ⟨h1, h2⟩]

/-- C6: `make_random_move` never returns a cell already in `moves_made` or
in the known-mine set, and it returns `None` exactly when every grid cell
is in one of those two sets.  The `random.choice` is modelled by an
arbitrary selector that picks an element of a non-empty list. -/
theorem c6_random_move (pick : List Cell → Cell) (σ : AIState)
    (hpick : ∀ l : List Cell, l ≠ [] → pick l ∈ l) :
    (∀ c : Cell, make_random_move pick σ = some c →
      c ∉ σ.moves_made ∧ c ∉ σ.mines) ∧
    (make_random_move pick σ = none ↔
      ∀ i j : ℕ, i < σ.height → j < σ.width →
        ((i:ℤ),(j:ℤ)) ∈ σ.moves_made ∨ ((i:ℤ),(j:ℤ)) ∈ σ.mines) := by
  constructor
  · intro c hc
    unfold make_random_move at hc
    by_cases hvm : validMoves σ ≠ []
    · rw [if_pos hvm] at hc
      obtain rfl := Option.some_inj.mp hc
      obtain ⟨i, j, -, -, -, h1, h2⟩ :=
        (mem_validMoves σ _).mp (hpick _ hvm)
      exact ⟨h1, h2⟩
    · rw [if_neg hvm] at hc
      exact absurd hc (by simp)
  · unfold make_random_move
    by_cases hvm : validMoves σ ≠ []
    · rw [if_pos hvm]
      constructor
      · intro h
        exact absurd h (by simp)
      · intro hall
        exfalso
        apply hvm
        rw [List.eq_nil_iff_forall_not_mem]
        intro c hc
        obtain ⟨i, j, hi, hj, rfl, h1, h2⟩ := (mem_validMoves σ c).mp hc
        rcases hall i j hi hj with h | h
        · exact h1 h
        · exact h2 h
    · rw [if_neg hvm]
      rw [not_not] at hvm
      constructor
      · intro _ i j hi hj
        by_contra hcon
        push_neg at hcon
        have hmem : ((i:ℤ),(j:ℤ)) ∈ validMoves σ :=
          (mem_validMoves σ _).mpr ⟨i, j, hi, hj, rfl, hcon.1, hcon.2⟩
        rw [hvm] at hmem
        exact absurd hmem (by simp)
      · intro _
        rfl

theorem c6_random_move_witness :
    ((0:ℤ),(0:ℤ)) ∉ (initState 1 1).moves_made ∧
    ((0:ℤ),(0:ℤ)) ∉ (initState 1 1).mines :=
  (c6_random_move (fun l => l.headD ((0:ℤ),(0:ℤ))) (initState 1 1)
      (fun l hl => by
        cases l with
        | nil => exact absurd rfl hl
        | cons a t => exact List.mem_cons_self a t)).1
    ((0:ℤ),(0:ℤ)) (by decide)

/-- C7: `known_mines` returns the whole cell set when `|cells| = count` and
the empty set otherwise; `known_safes` returns the cell set when
`count = 0` and the empty set otherwise.  Both are pure queries: in this
embedding they are functions of the sentence and return a value without
modifying it. -/
theorem c7_sentence_queries (s : Sentence) :
    (((s.cells.card : ℤ) = s.count → s.known_mines = s.cells) ∧
      ((s.cells.card : ℤ) ≠ s.count → s.known_mines = ∅)) ∧
    ((s.count = 0 → s.known_safes = s.cells) ∧
      (s.count ≠ 0 → s.known_safes = ∅)) := by
  refine ⟨⟨?_, ?_⟩, ?_, ?_⟩ <;>
    intro h <;>
    simp [Sentence.known_mines, Sentence.known_safes, h]

theorem c7_sentence_queries_witness :
    (⟨{((0:ℤ),(0:ℤ))}, 1⟩ : Sentence).known_mines = {((0:ℤ),(0:ℤ))} ∧
    (⟨{((0:ℤ),(0:ℤ))}, 1⟩ : Sentence).known_safes = ∅ :=
  ⟨(c7_sentence_queries ⟨{((0:ℤ),(0:ℤ))}, 1⟩).1.1 (by decide),
    (c7_sentence_queries ⟨{((0:ℤ),(0:ℤ))}, 1⟩).2.2 (by decide)⟩

/-- The state after observing `(0,0)` with clue 3 on an empty 2 x 2 agent:
all three neighbours are deduced to be mines. -/
def blastState1 : AIState :=
  ⟨2, 2, {((0:ℤ),(0:ℤ))},
    {((0:ℤ),(1:ℤ)), ((1:ℤ),(0:ℤ)), ((1:ℤ),(1:ℤ))},
    {((0:ℤ),(0:ℤ))}, [⟨∅, 0⟩]⟩

/-- The state after then observing `(0,1)` (a known mine) with clue 0:
`add_knowledge` unconditionally marks the observed cell safe. -/
def blastState2 : AIState :=
  ⟨2, 2, {((0:ℤ),(0:ℤ)), ((0:ℤ),(1:ℤ))},
    {((0:ℤ),(1:ℤ)), ((1:ℤ),(0:ℤ)), ((1:ℤ),(1:ℤ))},
    {((0:ℤ),(0:ℤ)), ((0:ℤ),(1:ℤ))}, [⟨∅, 0⟩]⟩

/-- C8 counterexample: across an arbitrary (not consistency-checked)
sequence of `add_knowledge` calls, a cell that is in the known-mine set at
one point can appear in the known-safe set later: opening a cell the agent
already knows to be a mine marks it safe unconditionally, violating the
claimed cross-exclusion for arbitrary call sequences. -/
theorem c8_counterexample :
    runObs 10 (initState 2 2) [(((0:ℤ),(0:ℤ)), 3)] = some blastState1 ∧
    ((0:ℤ),(1:ℤ)) ∈ blastState1.mines ∧
    runObs 10 blastState1 [(((0:ℤ),(1:ℤ)), 0)] = some blastState2 ∧
    ((0:ℤ),(1:ℤ)) ∈ blastState2.mines ∧
    ((0:ℤ),(1:ℤ)) ∈ blastState2.safes := by
  refine ⟨?_, by decide, ?_, by decide, by decide⟩
  · rw [runObs_cons 10 _ blastState1 _ _ _ (by decide)]
    rfl
  · rw [runObs_cons 10 _ blastState2 _ _ _ (by decide)]
    rfl

/-- C8 amended: across any sequence of `add_knowledge`, `mark_mine` and
`mark_safe` calls the sets `moves_made`, `mines` and `safes` only grow; and
when the whole sequence is consistent with one mine assignment, a cell in
the known-safe set at one point never appears in the known-mine set later,
and vice versa. -/
theorem c8_monotone_exclusion :
    (∀ (fuel : ℕ) (ops : List AgentOp) (σ σf : AIState),
      runOps fuel σ ops = some σf →
        σ.moves_made ⊆ σf.moves_made ∧ σ.mines ⊆ σf.mines ∧
        σ.safes ⊆ σf.safes) ∧
    (∀ (h w fuel : ℕ) (M : Finset Cell) (ops1 ops2 : List AgentOp)
        (σ1 σ2 : AIState),
      OpsConsistent h w M (ops1 ++ ops2) →
      runOps fuel (initState h w) ops1 = some σ1 →
      runOps fuel σ1 ops2 = some σ2 →
      σ1.safes ∩ σ2.mines = ∅ ∧ σ1.mines ∩ σ2.safes = ∅) := by
  constructor
  · intro fuel ops σ σf h
    have hE := evolves_runOps fuel ops σ σf h
    exact ⟨hE.moves_sub, hE.mines_sub, hE.safes_sub⟩
  · intro h w fuel M ops1 ops2 σ1 σ2 hcons h1 h2
    have hS1 : Sound M σ1 := sound_runOps fuel h w ops1 _ σ1 h1
      (sound_initState M h w) rfl rfl
      (fun op hop => hcons op (List.mem_append.mpr (Or.inl hop)))
    have hE1 := evolves_runOps fuel ops1 _ σ1 h1
    have hS2 : Sound M σ2 := sound_runOps fuel h w ops2 σ1 σ2 h2 hS1
      hE1.h_eq hE1.w_eq
      (fun op hop => hcons op (List.mem_append.mpr (Or.inr hop)))
    have hE2 := evolves_runOps fuel ops2 σ1 σ2 h2
    constructor
    · rw [Finset.eq_empty_iff_forall_not_mem]
      intro c hc
      have hcs := (Finset.mem_inter.mp hc).1
      have hcm := (Finset.mem_inter.mp hc).2
      exact hS2.safes_disj c (hE2.safes_sub hcs) (hS2.mines_sub hcm)
    · rw [Finset.eq_empty_iff_forall_not_mem]
      intro c hc
      have hcm := (Finset.mem_inter.mp hc).1
      have hcs := (Finset.mem_inter.mp hc).2
      exact hS2.safes_disj c hcs (hS2.mines_sub (hE2.mines_sub hcm))

/-- The state `obsState1` after the caller additionally marks the actual
mine `(1,1)` via `mark_mine`. -/
def obsState1Mine : AIState :=
  ⟨2, 2, {((0:ℤ),(0:ℤ))}, {((1:ℤ),(1:ℤ))}, {((0:ℤ),(0:ℤ))},
    [⟨{((0:ℤ),(1:ℤ)), ((1:ℤ),(0:ℤ))}, 0⟩]⟩

theorem runOps_one (fuel : ℕ) (σ σ1 : AIState) (op : AgentOp)
    (h : applyOp fuel σ op = some σ1) : runOps fuel σ [op] = some σ1 := by
  simp only [runOps, h]

theorem c8_monotone_exclusion_witness :
    ((initState 2 2).mines ⊆ obsState1.mines ∧
      obsState1.safes ∩ obsState1Mine.mines = ∅) := by
  constructor
  · exact (c8_monotone_exclusion.1 10
      [AgentOp.obs ((0:ℤ),(0:ℤ)) 1] (initState 2 2) obsState1
      (runOps_one 10 _ _ _ (by decide))).2.1
  · exact (c8_monotone_exclusion.2 2 2 10 {((1:ℤ),(1:ℤ))}
      [AgentOp.obs ((0:ℤ),(0:ℤ)) 1] [AgentOp.mine ((1:ℤ),(1:ℤ))]
      obsState1 obsState1Mine (by decide)
      (runOps_one 10 _ _ _ (by decide))
      (runOps_one 10 _ _ _ (by decide))).1

/-- Intermediate states of the diverging run on the 2 x 4 grid. -/
def divState1 : AIState :=
  ⟨2, 4, {((0:ℤ),(0:ℤ))}, ∅, {((0:ℤ),(0:ℤ))},
    [⟨{((0:ℤ),(1:ℤ)), ((1:ℤ),(0:ℤ)), ((1:ℤ),(1:ℤ))}, 10⟩]⟩

def divState2 : AIState :=
  ⟨2, 4, {((0:ℤ),(0:ℤ)), ((1:ℤ),(0:ℤ))}, ∅,
    {((0:ℤ),(0:ℤ)), ((1:ℤ),(0:ℤ))},
    [⟨divR, 10⟩, ⟨divR, 20⟩]⟩

/-- C9 counterexample: `add_knowledge` is not total.  After the three
completing calls `(0,0) -> 10`, `(1,0) -> 20`, `(0,2) -> 105` on a 2 x 4
agent, the call `add_knowledge (0,2) 205` never reaches a pass without
change: its `while changed` loop runs forever (the knowledge base grows
unboundedly), for every fuel. -/
theorem c9_counterexample :
    ¬ ∃ (fuel : ℕ) (σf : AIState),
      (runObs 10 (initState 2 4)
          [(((0:ℤ),(0:ℤ)), 10), (((1:ℤ),(0:ℤ)), 20),
            (((0:ℤ),(2:ℤ)), 105)]).bind
        (fun σ3 => add_knowledge fuel σ3 ((0:ℤ),(2:ℤ)) 205) = some σf := by
  rintro ⟨fuel, σf, hrun⟩
  have h3 : runObs 10 (initState 2 4)
      [(((0:ℤ),(0:ℤ)), 10), (((1:ℤ),(0:ℤ)), 20), (((0:ℤ),(2:ℤ)), 105)] =
      some divState3 := by
    rw [runObs_cons 10 _ divState1 _ _ _ (by decide),
      runObs_cons 10 _ divState2 _ _ _ (by decide),
      runObs_cons 10 _ divState3 _ _ _ (by decide)]
    rfl
  rw [h3] at hrun
  have hb : (some divState3).bind
      (fun σ3 => add_knowledge fuel σ3 ((0:ℤ),(2:ℤ)) 205) =
      add_knowledge fuel divState3 ((0:ℤ),(2:ℤ)) 205 := rfl
  rw [hb] at hrun
  unfold add_knowledge at hrun
  rw [divKb_inferLoop fuel _
    (by decide : DivKb (preObserve divState3 ((0:ℤ),(2:ℤ)) 205).knowledge)]
    at hrun
  exact absurd hrun (by simp)

/-- C9 amended: `add_knowledge` validates neither the cell nor the clue,
and its neighbour computation bounds-checks every coordinate, so every
produced neighbour lies inside the grid and no out-of-range access occurs;
however, a call need not complete: with clues inconsistent with every mine
assignment, the fixpoint loop can fail to terminate (see the
counterexample). -/
theorem c9_neighbor_bounds (height width : ℕ) (cell p : Cell)
    (hp : p ∈ neighbors height width cell) :
    0 ≤ p.1 ∧ p.1 < (height : ℤ) ∧ 0 ≤ p.2 ∧ p.2 < (width : ℤ) :=
  neighbors_bounds height width cell p hp

theorem c9_neighbor_bounds_witness :
    0 ≤ (((0:ℤ),(1:ℤ)) : Cell).1 ∧ (((0:ℤ),(1:ℤ)) : Cell).1 < ((2:ℕ) : ℤ) ∧
    0 ≤ (((0:ℤ),(1:ℤ)) : Cell).2 ∧ (((0:ℤ),(1:ℤ)) : Cell).2 < ((2:ℕ) : ℤ) :=
  c9_neighbor_bounds 2 2 ((0:ℤ),(0:ℤ)) ((0:ℤ),(1:ℤ)) (by decide)

/-- C10: the knowledge base is append-only.  Any sequence of agent
operations only lengthens the knowledge base; the entry at each existing
position only loses cells, and once its cell set is empty it is never
modified again.  An empty sentence yields no facts (`known_mines` and
`known_safes` are empty, so the simplification pass skips it), and it is
invisible to the resolution pass: removing it changes neither the derived
candidates nor the duplicate check. -/
theorem c10_append_only :
    (∀ (fuel : ℕ) (ops : List AgentOp) (σ σf : AIState),
      runOps fuel σ ops = some σf →
        σ.knowledge.length ≤ σf.knowledge.length ∧
        ∀ i, i < σ.knowledge.length →
          (σf.knowledge.getD i defaultSentence).cells ⊆
            (σ.knowledge.getD i defaultSentence).cells ∧
          ((σ.knowledge.getD i defaultSentence).cells = ∅ →
            σf.knowledge.getD i defaultSentence =
              σ.knowledge.getD i defaultSentence)) ∧
    (∀ s : Sentence, s.cells = ∅ →
      s.known_mines = ∅ ∧ s.known_safes = ∅) ∧
    (∀ (kb1 kb2 : List Sentence) (e : Sentence), e.cells = ∅ →
      resolutionPass (kb1 ++ e :: kb2) = resolutionPass (kb1 ++ kb2)) := by
  refine ⟨?_, ?_, resolutionPass_ignores_empty⟩
  · intro fuel ops σ σf h
    have hK := kbEvolves_runOps fuel ops σ σf h
    exact ⟨hK.len_le, fun i hi => ⟨hK.cells_sub i hi, hK.empty_fixed i hi⟩⟩
  · intro s hs
    exact ⟨Sentence.known_mines_of_empty s hs,
      Sentence.known_safes_of_empty s hs⟩

theorem c10_append_only_witness :
    (blastState2.knowledge.getD 0 defaultSentence =
      blastState1.knowledge.getD 0 defaultSentence) ∧
    ((⟨∅, 5⟩ : Sentence).known_mines = ∅ ∧
      (⟨∅, 5⟩ : Sentence).known_safes = ∅) ∧
    resolutionPass ([] ++ (⟨∅, 3⟩ : Sentence) ::
        [(⟨{((0:ℤ),(0:ℤ))}, 1⟩ : Sentence)]) =
      resolutionPass ([] ++ [(⟨{((0:ℤ),(0:ℤ))}, 1⟩ : Sentence)]) :=
  ⟨((c10_append_only.1 10 [AgentOp.obs ((0:ℤ),(1:ℤ)) 0] blastState1
        blastState2 (runOps_one 10 _ _ _ (by decide))).2 0
      (by decide)).2 (by decide),
    c10_append_only.2.1 ⟨∅, 5⟩ rfl,
    c10_append_only.2.2 [] [(⟨{((0:ℤ),(0:ℤ))}, 1⟩ : Sentence)] ⟨∅, 3⟩ rfl⟩
